import Mathlib

/-!
A shallow embedding of `consistency-checker.cpp` (MICRO 2020 artifact by
Alberto Ros): a tool enumerating all outcomes of a small multi-threaded
program under two consistency models, IBM370 (store-atomic) and x86-TSO
(write-atomic relaxed).

Programs are lists of threads, each a list of instructions.  The global
mutable state of the C++ code (the `po` dependency matrix, the `executed`
markers, the memory variables and values, and the per-instruction load
values) becomes an explicit state record threaded through the recursion.
The C++ `assert(false)` branches of the memory-variable lookups are
modelled by `Option`: `none` is an aborted run.  The unbounded C++
recursion becomes fuel-indexed recursion; running out of fuel is also
`none`, and the development proves that fuel `total_instrs + 1` never
runs out (each recursive call strictly increases the executed count).
-/

namespace CC

/-- An instruction: a store or a load, its memory location, and (for
stores) the stored value.  Mirrors `struct instr_`. -/
structure Instr where
  store : Bool
  mem : String
  value : Int
deriving DecidableEq, Repr

/-- A program: one list of instructions per thread.  Mirrors the
`program` array together with `num_threads` / `num_instrs`. -/
abbrev Program := List (List Instr)

/-- `num_threads` from the source. -/
def num_threads (P : Program) : Nat := P.length

/-- `num_instrs[t]` from the source. -/
def num_instrs (P : Program) (t : Nat) : Nat := (P.getD t []).length

/-- `program[t][i]` from the source (out-of-range access yields a dummy
instruction, never used on in-range indices). -/
def instr (P : Program) (t i : Nat) : Instr := (P.getD t []).getD i ⟨false, "", 0⟩

/-- All in-range `(thread, instruction)` pairs in thread-major,
position-minor order: the iteration order of the nested loops of
`get_possible_executions_ibm` / `_tso`. -/
def pairs (P : Program) : List (Nat × Nat) :=
  (List.range (num_threads P)).flatMap (fun t =>
    (List.range (num_instrs P t)).map (fun i => (t, i)))

/-- Total number of instructions of the program. -/
def total_instrs (P : Program) : Nat := (pairs P).length

/-- The explicit search state: the C++ globals `po`, `executed`,
`memvars`/`memvalues` (with `num_memvars` implied by the list length)
and `loadvalues`. -/
@[ext]
structure SState where
  po : List (List (List Bool))
  executed : List (List Bool)
  memvars : List String
  memvalues : List Int
  loadvalues : List (List Int)
deriving DecidableEq, Repr

/-- Read `po[t][d][i]`. -/
def getPo (s : SState) (t d i : Nat) : Bool :=
  ((s.po.getD t []).getD d []).getD i false

/-- Write `po[t][d][i] = v`. -/
def setPo (s : SState) (t d i : Nat) (v : Bool) : SState :=
  { s with po := s.po.set t ((s.po.getD t []).set d (((s.po.getD t []).getD d []).set i v)) }

/-- The edge predicate `add_po_ibm` establishes for cell `po[t][d][i]`:
the later instruction `d` depends on the earlier instruction `i`. -/
def edge_ibm (P : Program) (t d i : Nat) : Bool :=
  decide (i < d) &&
    (if (instr P t i).store then
      (instr P t d).store || ((instr P t i).mem == (instr P t d).mem)
    else true)

/-- The edge predicate `add_po_tso` establishes for cell `po[t][d][i]`:
as `edge_ibm` but without the store-to-same-location-load edge. -/
def edge_tso (P : Program) (t d i : Nat) : Bool :=
  decide (i < d) && (if (instr P t i).store then (instr P t d).store else true)

/-- `add_po_ibm(t, i)`: rewrite column `i` of thread `t`'s dependency
matrix; entries `d ≤ i` become false, entries `d > i` become the IBM370
program-order condition. -/
def add_po_ibm (P : Program) (t i : Nat) (s : SState) : SState :=
  (List.range (num_instrs P t)).foldl (fun s2 d => setPo s2 t d i (edge_ibm P t d i)) s

/-- `add_po_tso(t, i)`: as `add_po_ibm` but with the TSO condition. -/
def add_po_tso (P : Program) (t i : Nat) (s : SState) : SState :=
  (List.range (num_instrs P t)).foldl (fun s2 d => setPo s2 t d i (edge_tso P t d i)) s

/-- `remove_po(t, i)`: clear `po[t][d][i]` for every `d > i` (the
source loops `d` from `i+1` to `num_instrs[t]-1`). -/
def remove_po (P : Program) (t i : Nat) (s : SState) : SState :=
  ((List.range (num_instrs P t)).filter (fun d => decide (i < d))).foldl
    (fun s2 d => setPo s2 t d i false) s

/-- `has_po_dependencies(thread, instr)`: some entry of row `instr` is set. -/
def has_po_dependencies (P : Program) (t x : Nat) (s : SState) : Bool :=
  (List.range (num_instrs P t)).any (fun d => getPo s t x d)

/-- Read `executed[t][i]`. -/
def get_executed (s : SState) (t i : Nat) : Bool := (s.executed.getD t []).getD i false

/-- Write `executed[t][i] = v`. -/
def set_executed (s : SState) (t i : Nat) (v : Bool) : SState :=
  { s with executed := s.executed.set t ((s.executed.getD t []).set i v) }

/-- `all_executed()` from the source. -/
def all_executed (P : Program) (s : SState) : Bool :=
  (List.range (num_threads P)).all (fun t =>
    (List.range (num_instrs P t)).all (fun i => get_executed s t i))

/-- `insert_memvar(var)`: append the location with initial value 0
unless it is already registered.  Acts on the `(memvars, memvalues)`
pair, as in the source where it runs during parsing. -/
def insert_memvar (var : String) (mv : List String × List Int) : List String × List Int :=
  if mv.1.contains var then mv else (mv.1 ++ [var], mv.2 ++ [0])

/-- Position of a location in the registration list: the linear scan
both `get_memvar` and `update_memvar` perform. -/
def memIdx : List String → String → Option Nat
  | [], _ => none
  | v :: rest, var => if v == var then some 0 else (memIdx rest var).map (fun p => p + 1)

/-- `get_memvar(var)`; `none` models the `assert(false)` branch. -/
def get_memvar (s : SState) (var : String) : Option Int :=
  (memIdx s.memvars var).bind (fun p => s.memvalues.get? p)

/-- `update_memvar(var, value)`: returns the previous value together
with the updated state; `none` models the `assert(false)` branch. -/
def update_memvar (var : String) (value : Int) (s : SState) : Option (Int × SState) :=
  (memIdx s.memvars var).bind (fun p => (s.memvalues.get? p).map
    (fun old => (old, ⟨s.po, s.executed, s.memvars, s.memvalues.set p value, s.loadvalues⟩)))

/-- Read `loadvalues[t][i]`. -/
def get_load (s : SState) (t i : Nat) : Int := (s.loadvalues.getD t []).getD i 0

/-- `update_load(thread, instr, value)`: returns the previous value
together with the updated state. -/
def update_load (t i : Nat) (value : Int) (s : SState) : Int × SState :=
  (get_load s t i,
   { s with loadvalues := s.loadvalues.set t ((s.loadvalues.getD t []).set i value) })

/-- `print_mem`: render the memory state as in the source. -/
def print_mem (s : SState) : String :=
  (List.range s.memvars.length).foldl
    (fun acc pos =>
      acc ++ "[" ++ s.memvars.getD pos "" ++ "]==" ++ toString (s.memvalues.getD pos 0) ++ "; ")
    ""

/-- `print_loads`: render every load instruction's observed value as in
the source. -/
def print_loads (P : Program) (s : SState) : String :=
  (List.range (num_threads P)).foldl (fun acc t =>
    (List.range (num_instrs P t)).foldl (fun acc2 i =>
      if (instr P t i).store then acc2
      else acc2 ++ (instr P t i).mem ++ "==" ++ toString (get_load s t i) ++ "; ") acc)
    ""

/-- The canonical outcome record of a completed execution: exactly the
string `add_possible_execution_ibm` / `_tso` inserts into the solution
set. -/
def outcome (P : Program) (s : SState) : String := print_mem s ++ print_loads P s

/-- Insertion into the deduplicating solution set (`set<string>::insert`).
The list holds the distinct outcomes in discovery order. -/
def add_possible_execution (P : Program) (sols : List String) (s : SState) : List String :=
  if sols.contains (outcome P s) then sols else sols ++ [outcome P s]

/-- `is_prevstore(thread, instr)`: some earlier same-thread store writes
this load's location. -/
def is_prevstore (P : Program) (t i : Nat) : Bool :=
  (List.range i).any (fun j => (instr P t j).store && ((instr P t j).mem == (instr P t i).mem))

/-- `is_prevstore_executed(thread, instr)`: the downward scan succeeds
iff some earlier same-thread same-location store is marked executed
(the scan skips non-executed matches and keeps looking at older ones). -/
def is_prevstore_executed (P : Program) (t i : Nat) (s : SState) : Bool :=
  (List.range i).any (fun j =>
    (instr P t j).store && ((instr P t j).mem == (instr P t i).mem) && get_executed s t j)

/-- `get_prevstore(thread, instr)`: value of the nearest earlier
same-thread same-location store (the downward scan returns at the first
match); 0 models the unreachable `assert(false)`. -/
def get_prevstore (P : Program) (t i : Nat) : Int :=
  match (List.range i).reverse.find?
      (fun j => (instr P t j).store && ((instr P t j).mem == (instr P t i).mem)) with
  | some j => (instr P t j).value
  | none => 0

/-- The value an executing load records in the TSO search (lines
297-301 of the source): the forwarded `get_prevstore` value when
`is_prevstore && !is_prevstore_executed`, the current memory value
otherwise. -/
def tso_load_value (P : Program) (t i : Nat) (s : SState) : Option Int :=
  if is_prevstore P t i && !(is_prevstore_executed P t i s) then some (get_prevstore P t i)
  else get_memvar s (instr P t i).mem

/-- One iteration of the loop body of `get_possible_executions_ibm`
(`rec` is the recursive call at the remaining fuel): if the candidate
is unexecuted and dependency-free, mark it executed, apply its effect
(a store updates memory, a load records the current memory value),
remove its dependency column, recurse (or record the outcome when
everything has executed), then undo in the source's order: `add_po_ibm`,
restore the memory value / zero the load value, unmark. -/
def ibm_iter (P : Program)
    (rec : SState → List String → Option (SState × List String)) :
    SState × List String → Nat × Nat → Option (SState × List String)
  | (s0, sols0), (t0, i0) =>
  if !(get_executed s0 t0 i0) && !(has_po_dependencies P t0 i0 s0) then do
    let sA := set_executed s0 t0 i0 true
    let ov ←
      if (instr P t0 i0).store then
        update_memvar (instr P t0 i0).mem (instr P t0 i0).value sA
      else
        (get_memvar sA (instr P t0 i0).mem).map (fun v => update_load t0 i0 v sA)
    let sB := remove_po P t0 i0 ov.2
    let res ←
      if all_executed P sB then some (sB, add_possible_execution P sols0 sB)
      else rec sB sols0
    let sC := add_po_ibm P t0 i0 res.1
    let sD ←
      if (instr P t0 i0).store then
        (update_memvar (instr P t0 i0).mem ov.1 sC).map (fun r => r.2)
      else some (update_load t0 i0 0 sC).2
    pure (set_executed sD t0 i0 false, res.2)
  else pure (s0, sols0)

/-- `get_possible_executions_ibm`, fuel-indexed: the loop over all
candidate instructions, recursing with one unit of fuel less. -/
def exec_ibm (P : Program) : Nat → SState → List String → Option (SState × List String)
  | 0, _, _ => none
  | fuel+1, s, sols =>
    (pairs P).foldlM (ibm_iter P (fun s2 sols2 => exec_ibm P fuel s2 sols2)) (s, sols)

/-- One iteration of the loop body of `get_possible_executions_tso`.
Differences from the IBM370 body, following the source: the dependency
column is removed before the effect, the pre-store memory value is read
up front, a load records `tso_load_value`, and after the first
recursion, when the executed instruction is a load satisfying
`is_prevstore && !is_prevstore_executed`, `update_load` is applied
again with `get_prevstore` and a second recursion runs; the undo then
zeroes the load value / restores the memory value, re-adds the column
with `add_po_tso`, and unmarks. -/
def tso_iter (P : Program)
    (rec : SState → List String → Option (SState × List String)) :
    SState × List String → Nat × Nat → Option (SState × List String)
  | (s0, sols0), (t0, i0) =>
  if !(get_executed s0 t0 i0) && !(has_po_dependencies P t0 i0 s0) then do
    let sA := set_executed s0 t0 i0 true
    let sB := remove_po P t0 i0 sA
    let old ← get_memvar sB (instr P t0 i0).mem
    let sC ←
      if (instr P t0 i0).store then
        (update_memvar (instr P t0 i0).mem (instr P t0 i0).value sB).map
          (fun r => r.2)
      else
        (tso_load_value P t0 i0 sB).map (fun v => (update_load t0 i0 v sB).2)
    let res1 ←
      if all_executed P sC then some (sC, add_possible_execution P sols0 sC)
      else rec sC sols0
    let res2 ←
      if !(instr P t0 i0).store && is_prevstore P t0 i0
          && !(is_prevstore_executed P t0 i0 res1.1) then
        let sE := (update_load t0 i0 (get_prevstore P t0 i0) res1.1).2
        if all_executed P sE then some (sE, add_possible_execution P res1.2 sE)
        else rec sE res1.2
      else some res1
    let sF ←
      if (instr P t0 i0).store then
        (update_memvar (instr P t0 i0).mem old res2.1).map (fun r => r.2)
      else some (update_load t0 i0 0 res2.1).2
    let sG := add_po_tso P t0 i0 sF
    pure (set_executed sG t0 i0 false, res2.2)
  else pure (s0, sols0)

/-- `get_possible_executions_tso`, fuel-indexed: the loop over all
candidate instructions, recursing with one unit of fuel less. -/
def exec_tso (P : Program) : Nat → SState → List String → Option (SState × List String)
  | 0, _, _ => none
  | fuel+1, s, sols =>
    (pairs P).foldlM (tso_iter P (fun s2 sols2 => exec_tso P fuel s2 sols2)) (s, sols)

/-- The registered memory variables after parsing: `insert_memvar` runs
on every instruction's location in parse order. -/
def init_mem (P : Program) : List String × List Int :=
  (pairs P).foldl (fun mv ti => insert_memvar (instr P ti.1 ti.2).mem mv) ([], [])

/-- The state after parsing and `reset_executed()`: all-false dependency
matrix (the C++ globals' zero initialization), nothing executed,
memory variables registered at value 0, all load values 0. -/
def init_state (P : Program) : SState :=
  { po := (List.range (num_threads P)).map (fun t =>
      List.replicate (num_instrs P t) (List.replicate (num_instrs P t) false))
  , executed := (List.range (num_threads P)).map (fun t => List.replicate (num_instrs P t) false)
  , memvars := (init_mem P).1
  , memvalues := (init_mem P).2
  , loadvalues := (List.range (num_threads P)).map (fun t =>
      List.replicate (num_instrs P t) 0) }

/-- `build_po_graph_ibm()`: run `add_po_ibm` on every instruction. -/
def build_po_graph_ibm (P : Program) (s : SState) : SState :=
  (pairs P).foldl (fun s2 ti => add_po_ibm P ti.1 ti.2 s2) s

/-- `build_po_graph_tso()`: run `add_po_tso` on every instruction. -/
def build_po_graph_tso (P : Program) (s : SState) : SState :=
  (pairs P).foldl (fun s2 ti => add_po_tso P ti.1 ti.2 s2) s

/-- `reset_executed()`: clear every in-range executed marker. -/
def reset_executed (P : Program) (s : SState) : SState :=
  (pairs P).foldl (fun s2 ti => set_executed s2 ti.1 ti.2 false) s

/-- The initial state of the IBM370 search in `main`. -/
def init_ibm (P : Program) : SState := build_po_graph_ibm P (init_state P)

/-- The initial state of the TSO search in `main`. -/
def init_tso (P : Program) : SState := build_po_graph_tso P (init_state P)

/-- The analysis `main` performs after parsing: the IBM370 search from
the freshly built IBM370 graph, then — on the state that search leaves
behind — `reset_executed`, the TSO graph build and the TSO search;
finally the report pairing each TSO outcome with its star (`true` iff
it is absent from the IBM370 outcome set). -/
def run_main (P : Program) :
    Option (List String × (List String × List (String × Bool))) := do
  let r1 ← exec_ibm P (total_instrs P + 1) (init_ibm P) []
  let st1 := build_po_graph_tso P (reset_executed P r1.1)
  let r2 ← exec_tso P (total_instrs P + 1) st1 []
  pure (r1.2, (r2.2, r2.2.map (fun o => (o, !(r1.2.contains o)))))

/-- `solutions_ibm` of the run (empty on an aborted run). -/
def solutions_ibm (P : Program) : List String := ((run_main P).map (fun r => r.1)).getD []

/-- `solutions_tso` of the run (empty on an aborted run). -/
def solutions_tso (P : Program) : List String := ((run_main P).map (fun r => r.2.1)).getD []

/-- The relaxed-only report of the run: each TSO outcome together with
whether `main` suffixes it with `*`. -/
def report_tso (P : Program) : List (String × Bool) :=
  ((run_main P).map (fun r => r.2.2)).getD []

/-! ## Invariants of the search state -/

/-- Well-formed dimensions: every state component has the shape of the
parsed program's global arrays (restricted to the in-range region the
code touches), and there are as many memory values as variables. -/
def dims_ok (P : Program) (s : SState) : Prop :=
  s.po.length = num_threads P ∧
  s.executed.length = num_threads P ∧
  s.loadvalues.length = num_threads P ∧
  s.memvalues.length = s.memvars.length ∧
  (∀ t, t < num_threads P →
    (s.po.getD t []).length = num_instrs P t ∧
    (s.executed.getD t []).length = num_instrs P t ∧
    (s.loadvalues.getD t []).length = num_instrs P t ∧
    (∀ d, d < num_instrs P t → ((s.po.getD t []).getD d []).length = num_instrs P t))

/-- The dependency matrix agrees with the static edge relation `edge`
minus the columns of already executed instructions: the matrix state the
search maintains through `remove_po` / `add_po`. -/
def po_matches (P : Program) (edge : Program → Nat → Nat → Nat → Bool) (s : SState) : Prop :=
  ∀ t, t < num_threads P → ∀ d, d < num_instrs P t → ∀ i, i < num_instrs P t →
    getPo s t d i = (edge P t d i && !(get_executed s t i))

/-- Every not-yet-executed instruction has load value 0. -/
def loads_zero (P : Program) (s : SState) : Prop :=
  ∀ t, t < num_threads P → ∀ i, i < num_instrs P t →
    get_executed s t i = false → get_load s t i = 0

/-- Every location named by an instruction is registered. -/
def registered (P : Program) (s : SState) : Prop :=
  ∀ t, t < num_threads P → ∀ i, i < num_instrs P t → (instr P t i).mem ∈ s.memvars

/-- The full invariant of every state either search is invoked on. -/
def inv (P : Program) (edge : Program → Nat → Nat → Nat → Bool) (s : SState) : Prop :=
  dims_ok P s ∧ po_matches P edge s ∧ loads_zero P s ∧ registered P s

/-- Number of not-yet-executed instructions: the recursion measure. -/
def unexec (P : Program) (s : SState) : Nat :=
  (pairs P).countP (fun ti => !(get_executed s ti.1 ti.2))

/-! ## A variant of the relaxed search following the spec's description

The spec describes the second branch of the relaxed search as
re-applying the *alternative* of the forwarded value, namely the
current globally committed memory value.  The following variant
implements that description; the faithful `exec_tso` above re-applies
`get_prevstore` instead.  Comparing the two settles whether the source
matches the description. -/

/-- As `tso_iter`, except that the second branch records the current
globally committed memory value (the spec's description of step (c)),
not the forwarded `get_prevstore` value the source re-applies. -/
def tso_iter_spec (P : Program)
    (rec : SState → List String → Option (SState × List String)) :
    SState × List String → Nat × Nat → Option (SState × List String)
  | (s0, sols0), (t0, i0) =>
  if !(get_executed s0 t0 i0) && !(has_po_dependencies P t0 i0 s0) then do
    let sA := set_executed s0 t0 i0 true
    let sB := remove_po P t0 i0 sA
    let old ← get_memvar sB (instr P t0 i0).mem
    let sC ←
      if (instr P t0 i0).store then
        (update_memvar (instr P t0 i0).mem (instr P t0 i0).value sB).map
          (fun r => r.2)
      else
        (tso_load_value P t0 i0 sB).map (fun v => (update_load t0 i0 v sB).2)
    let res1 ←
      if all_executed P sC then some (sC, add_possible_execution P sols0 sC)
      else rec sC sols0
    let res2 ←
      if !(instr P t0 i0).store && is_prevstore P t0 i0
          && !(is_prevstore_executed P t0 i0 res1.1) then do
        let cv ← get_memvar res1.1 (instr P t0 i0).mem
        let sE := (update_load t0 i0 cv res1.1).2
        if all_executed P sE then some (sE, add_possible_execution P res1.2 sE)
        else rec sE res1.2
      else some res1
    let sF ←
      if (instr P t0 i0).store then
        (update_memvar (instr P t0 i0).mem old res2.1).map (fun r => r.2)
      else some (update_load t0 i0 0 res2.1).2
    let sG := add_po_tso P t0 i0 sF
    pure (set_executed sG t0 i0 false, res2.2)
  else pure (s0, sols0)

/-- The relaxed search as the spec describes it (see `tso_iter_spec`). -/
def exec_tso_spec (P : Program) : Nat → SState → List String → Option (SState × List String)
  | 0, _, _ => none
  | fuel+1, s, sols =>
    (pairs P).foldlM (tso_iter_spec P (fun s2 sols2 => exec_tso_spec P fuel s2 sols2)) (s, sols)

/-- Outcome set of the spec-described relaxed search. -/
def solutions_tso_spec (P : Program) : List String :=
  ((exec_tso_spec P (total_instrs P + 1) (init_tso P) []).map (fun r => r.2)).getD []

/-- Outcome set of the faithful relaxed search run directly from its
initial state (the same set `solutions_tso` yields, but on the same
footing as `solutions_tso_spec` for comparison). -/
def solutions_tso_direct (P : Program) : List String :=
  ((exec_tso P (total_instrs P + 1) (init_tso P) []).map (fun r => r.2)).getD []

/-- The index of the nearest program-order-preceding same-thread store
to the load's location, as the spec phrases the forwarding source
("a same-thread Store to the same location precedes this Load"): the
innermost such store, which is exactly the one whose value
`get_prevstore` returns. -/
def nearest_prevstore (P : Program) (t i : Nat) : Option Nat :=
  (List.range i).reverse.find?
    (fun j => (instr P t j).store && ((instr P t j).mem == (instr P t i).mem))

/-! ## Concrete programs -/

/-- Single-thread program `st x 1; st x 2; ld x`. -/
def prog1 : Program := [[⟨true, "x", 1⟩, ⟨true, "x", 2⟩, ⟨false, "x", 0⟩]]

/-- The store-buffering litmus test: thread 1 `st x 1; ld y`,
thread 2 `st y 1; ld x`. -/
def litmus : Program := [[⟨true, "x", 1⟩, ⟨false, "y", 0⟩], [⟨true, "y", 1⟩, ⟨false, "x", 0⟩]]

/-- Single-thread program `st x 5; ld x`. -/
def prog2 : Program := [[⟨true, "x", 5⟩, ⟨false, "x", 0⟩]]

/-- A mid-search state of the relaxed search on `prog1`: the first
store `st x 1` has executed (memory holds `x == 1`), the second store
`st x 2` and the load have not. -/
def midState1 : SState :=
  { po := [[ [false, false, false], [false, false, false], [false, false, false] ]]
  , executed := [[true, false, false]]
  , memvars := ["x"]
  , memvalues := [1]
  , loadvalues := [[0, 0, 0]] }

/-- Two-thread program `st x 1; ld x` / `st x 2`: while the load's
forwarding condition holds, another thread's store can change x, so the
committed-value continuation differs from the forwarded one. -/
def prog3 : Program := [[⟨true, "x", 1⟩, ⟨false, "x", 0⟩], [⟨true, "x", 2⟩]]

/-- The continuation the relaxed search runs after recording a load
value: record the outcome if everything has executed, else recurse. -/
def tso_branch (P : Program) (f t i : Nat) (sC : SState) (sols : List String) :
    Option (SState × List String) :=
  if all_executed P sC then some (sC, add_possible_execution P sols sC)
  else exec_tso P f sC sols

/-- The load-value rule as the claim words it: forward the nearest
preceding same-thread same-location store's value exactly when that
nearest store itself has not yet executed; otherwise read memory. -/
def tso_load_value_claim (P : Program) (t i : Nat) (s : SState) : Option Int :=
  match nearest_prevstore P t i with
  | some j =>
      if get_executed s t j then get_memvar s (instr P t i).mem
      else some ((instr P t j).value)
  | none => get_memvar s (instr P t i).mem

instance (P : Program) (s : SState) : Decidable (dims_ok P s) := by
  unfold dims_ok
  infer_instance

instance (P : Program) (edge : Program → Nat → Nat → Nat → Bool) (s : SState) :
    Decidable (po_matches P edge s) := by
  unfold po_matches
  infer_instance

instance (P : Program) (s : SState) : Decidable (loads_zero P s) := by
  unfold loads_zero
  infer_instance

instance (P : Program) (s : SState) : Decidable (registered P s) := by
  unfold registered
  infer_instance

instance (P : Program) (edge : Program → Nat → Nat → Nat → Bool) (s : SState) :
    Decidable (inv P edge s) := by
  unfold inv
  infer_instance

/-! ## List access helpers -/

theorem getD_set_self {α : Type} (l : List α) (i : Nat) (v d : α) (h : i < l.length) :
    (l.set i v).getD i d = v := by
  rw [List.getD_eq_getElem?_getD, List.getElem?_set_self h]
  rfl

theorem getD_set_ne {α : Type} (l : List α) {i j : Nat} (v d : α) (h : i ≠ j) :
    (l.set i v).getD j d = l.getD j d := by
  rw [List.getD_eq_getElem?_getD, List.getElem?_set_ne h, ← List.getD_eq_getElem?_getD]

theorem getD_set {α : Type} (l : List α) (i j : Nat) (v d : α) :
    (l.set i v).getD j d = if i = j ∧ i < l.length then v else l.getD j d := by
  rw [List.getD_eq_getElem?_getD, List.getElem?_set]
  by_cases hij : i = j
  · subst hij
    by_cases hl : i < l.length
    · simp [hl]
    · have hnone : l[i]? = none := by
        rw [List.getElem?_eq_none_iff]
        omega
      simp [hl, hnone, List.getD_eq_getElem?_getD]
  · simp [hij, List.getD_eq_getElem?_getD]

theorem set_getD_self {α : Type} (l : List α) (i : Nat) (d : α) (h : i < l.length) :
    l.set i (l.getD i d) = l := by
  induction l generalizing i with
  | nil => simp at h
  | cons a l ih =>
    cases i with
    | zero => simp
    | succ n =>
      simp only [List.getD_cons_succ, List.set_cons_succ, List.cons.injEq, true_and]
      exact ih n (by simpa using h)

theorem getD_eq_getElem {α : Type} (l : List α) (n : Nat) (d : α) (h : n < l.length) :
    l.getD n d = l[n] := by
  rw [List.getD_eq_getElem?_getD, List.getElem?_eq_getElem h]
  rfl

/-! ## Two-level nested list access -/

theorem len1_set2 {α : Type} (m : List (List α)) (t i : Nat) (v : α) :
    (m.set t ((m.getD t []).set i v)).length = m.length :=
  List.length_set m t _

theorem len2_set2 {α : Type} (m : List (List α)) (t i t' : Nat) (v : α) :
    ((m.set t ((m.getD t []).set i v)).getD t' []).length = (m.getD t' []).length := by
  rw [getD_set]
  split
  · next h => rw [List.length_set, h.1]
  · rfl

theorem getD2_set2_self {α : Type} (m : List (List α)) (t i : Nat) (v d : α)
    (h1 : t < m.length) (h2 : i < (m.getD t []).length) :
    ((m.set t ((m.getD t []).set i v)).getD t []).getD i d = v := by
  rw [getD_set_self _ _ _ _ h1, getD_set_self _ _ _ _ h2]

theorem getD2_set2_ne {α : Type} (m : List (List α)) (t i t' i' : Nat) (v d : α)
    (h : ¬(t = t' ∧ i = i')) :
    ((m.set t ((m.getD t []).set i v)).getD t' []).getD i' d = (m.getD t' []).getD i' d := by
  by_cases ht : t = t'
  · subst ht
    have hi : i ≠ i' := fun hi => h ⟨rfl, hi⟩
    rw [getD_set]
    split
    · next hc => rw [getD_set_ne _ _ _ hi]
    · rfl
  · rw [getD_set_ne _ _ _ ht]

theorem getD2_set2 {α : Type} (m : List (List α)) (t i t' i' : Nat) (v d : α) :
    ((m.set t ((m.getD t []).set i v)).getD t' []).getD i' d =
      if t = t' ∧ i = i' ∧ t < m.length ∧ i < (m.getD t []).length then v
      else (m.getD t' []).getD i' d := by
  split
  · next h =>
    obtain ⟨h1, h2, h3, h4⟩ := h
    subst h1; subst h2
    exact getD2_set2_self m t i v d h3 h4
  · next h =>
    by_cases hti : t = t' ∧ i = i'
    · obtain ⟨h1, h2⟩ := hti
      subst h1; subst h2
      rw [getD_set]
      by_cases hl1 : t < m.length
      · rw [if_pos ⟨rfl, hl1⟩, getD_set]
        have hl2 : ¬(i < (m.getD t []).length) := fun hl2 => h ⟨rfl, rfl, hl1, hl2⟩
        rw [if_neg (fun hc => hl2 hc.2)]
      · rw [if_neg (fun hc => hl1 hc.2)]
    · exact getD2_set2_ne m t i t' i' v d hti

theorem set2_collapse {α : Type} (m : List (List α)) (t i : Nat) (v w : α)
    (h1 : t < m.length) :
    ((m.set t ((m.getD t []).set i v)).set t
      (((m.set t ((m.getD t []).set i v)).getD t []).set i w)) =
    m.set t ((m.getD t []).set i w) := by
  rw [getD_set_self _ _ _ _ h1, List.set_set, List.set_set]

theorem set2_restore {α : Type} (m : List (List α)) (t i : Nat) (d : α)
    (h1 : t < m.length) (h2 : i < (m.getD t []).length) :
    m.set t ((m.getD t []).set i ((m.getD t []).getD i d)) = m := by
  rw [set_getD_self _ _ _ h2, set_getD_self _ _ _ h1]

/-! ## Access to the dependency matrix across `setPo` -/

theorem getPo_setPo_self (s : SState) (t d i : Nat) (v : Bool)
    (h1 : t < s.po.length) (h2 : d < (s.po.getD t []).length)
    (h3 : i < ((s.po.getD t []).getD d []).length) :
    getPo (setPo s t d i v) t d i = v := by
  simp only [getPo, setPo]
  rw [getD_set_self _ _ _ _ h1, getD_set_self _ _ _ _ h2, getD_set_self _ _ _ _ h3]

theorem getPo_setPo_ne (s : SState) (t d i t' d' i' : Nat) (v : Bool)
    (h : ¬(t = t' ∧ d = d' ∧ i = i')) :
    getPo (setPo s t d i v) t' d' i' = getPo s t' d' i' := by
  simp only [getPo, setPo]
  by_cases ht : t = t'
  · subst ht
    rw [getD_set]
    split
    · next hc =>
      by_cases hd : d = d'
      · subst hd
        have hi : i ≠ i' := fun hi => h ⟨rfl, rfl, hi⟩
        rw [getD_set]
        split
        · next hc2 => rw [getD_set_ne _ _ _ hi]
        · rfl
      · rw [getD_set_ne _ _ _ hd]
    · rfl
  · rw [getD_set_ne _ _ _ ht]

theorem po_len1_setPo (s : SState) (t d i : Nat) (v : Bool) :
    (setPo s t d i v).po.length = s.po.length := List.length_set _ _ _

theorem po_len2_setPo (s : SState) (t d i t' : Nat) (v : Bool) :
    ((setPo s t d i v).po.getD t' []).length = (s.po.getD t' []).length := by
  simp only [setPo]
  rw [getD_set]
  split
  · next h => rw [List.length_set, h.1]
  · rfl

theorem po_len3_setPo (s : SState) (t d i t' d' : Nat) (v : Bool) :
    (((setPo s t d i v).po.getD t' []).getD d' []).length =
      ((s.po.getD t' []).getD d' []).length := by
  simp only [setPo]
  by_cases ht : t = t'
  · subst ht
    rw [getD_set]
    split
    · next hc =>
      by_cases hd : d = d'
      · subst hd
        rw [getD_set]
        split
        · next hc2 => rw [List.length_set]
        · rfl
      · rw [getD_set_ne _ _ _ hd]
    · rfl
  · rw [getD_set_ne _ _ _ ht]

/-! ## Fold preservation -/

theorem foldl_proj {α β : Type} (p : SState → α) (g : SState → β → SState)
    (h : ∀ s b, p (g s b) = p s) : ∀ (l : List β) (s : SState), p (l.foldl g s) = p s := by
  intro l
  induction l with
  | nil => intro s; rfl
  | cons b l ih => intro s; rw [List.foldl_cons, ih, h]

theorem foldl_pres {β : Type} (Q : SState → Prop) (g : SState → β → SState)
    (h : ∀ s b, Q s → Q (g s b)) : ∀ (l : List β) (s : SState), Q s → Q (l.foldl g s) := by
  intro l
  induction l with
  | nil => intro s hs; exact hs
  | cons b l ih => intro s hs; exact ih _ (h s b hs)

theorem getPo_foldl_col (t i : Nat) (f : Nat → Bool) :
    ∀ (ds : List Nat) (s : SState) (t' d' i' : Nat),
    t < s.po.length →
    (∀ d ∈ ds, d < (s.po.getD t []).length) →
    (∀ d ∈ ds, i < ((s.po.getD t []).getD d []).length) →
    getPo (ds.foldl (fun s2 dd => setPo s2 t dd i (f dd)) s) t' d' i' =
      if t = t' ∧ i = i' ∧ d' ∈ ds then f d' else getPo s t' d' i' := by
  intro ds
  induction ds with
  | nil => intro s t' d' i' _ _ _; simp
  | cons d0 ds ih =>
    intro s t' d' i' hT hrows hcells
    rw [List.foldl_cons]
    rw [ih (setPo s t d0 i (f d0)) t' d' i'
      (by rw [po_len1_setPo]; exact hT)
      (by intro d hd; rw [po_len2_setPo]; exact hrows d (List.mem_cons_of_mem _ hd))
      (by intro d hd; rw [po_len3_setPo]; exact hcells d (List.mem_cons_of_mem _ hd))]
    by_cases hmain : t = t' ∧ i = i' ∧ d' ∈ ds
    · rw [if_pos hmain, if_pos ⟨hmain.1, hmain.2.1, List.mem_cons_of_mem _ hmain.2.2⟩]
    · rw [if_neg hmain]
      by_cases hd0 : t = t' ∧ i = i' ∧ d' = d0
      · obtain ⟨h1, h2, h3⟩ := hd0
        subst h1; subst h2; subst h3
        rw [getPo_setPo_self s t d' i (f d') (by exact hT)
          (hrows d' (List.mem_cons_self _ _)) (hcells d' (List.mem_cons_self _ _))]
        rw [if_pos ⟨rfl, rfl, List.mem_cons_self _ _⟩]
      · rw [getPo_setPo_ne s t d0 i t' d' i' (f d0) (by tauto)]
        rw [if_neg (by
          intro hcon
          obtain ⟨h1, h2, h3⟩ := hcon
          rcases List.mem_cons.mp h3 with h3 | h3
          · exact hd0 ⟨h1, h2, h3⟩
          · exact hmain ⟨h1, h2, h3⟩)]

/-! ## The po operations: untouched fields and cell values -/

theorem remove_po_executed (P : Program) (t i : Nat) (s : SState) :
    (remove_po P t i s).executed = s.executed := by
  unfold remove_po
  apply foldl_proj
  intro s2 b
  rfl

theorem remove_po_memvars (P : Program) (t i : Nat) (s : SState) :
    (remove_po P t i s).memvars = s.memvars := by
  unfold remove_po
  apply foldl_proj
  intro s2 b
  rfl

theorem remove_po_memvalues (P : Program) (t i : Nat) (s : SState) :
    (remove_po P t i s).memvalues = s.memvalues := by
  unfold remove_po
  apply foldl_proj
  intro s2 b
  rfl

theorem remove_po_loadvalues (P : Program) (t i : Nat) (s : SState) :
    (remove_po P t i s).loadvalues = s.loadvalues := by
  unfold remove_po
  apply foldl_proj
  intro s2 b
  rfl

theorem add_po_ibm_executed (P : Program) (t i : Nat) (s : SState) :
    (add_po_ibm P t i s).executed = s.executed := by
  unfold add_po_ibm
  apply foldl_proj
  intro s2 b
  rfl

theorem add_po_ibm_memvars (P : Program) (t i : Nat) (s : SState) :
    (add_po_ibm P t i s).memvars = s.memvars := by
  unfold add_po_ibm
  apply foldl_proj
  intro s2 b
  rfl

theorem add_po_ibm_memvalues (P : Program) (t i : Nat) (s : SState) :
    (add_po_ibm P t i s).memvalues = s.memvalues := by
  unfold add_po_ibm
  apply foldl_proj
  intro s2 b
  rfl

theorem add_po_ibm_loadvalues (P : Program) (t i : Nat) (s : SState) :
    (add_po_ibm P t i s).loadvalues = s.loadvalues := by
  unfold add_po_ibm
  apply foldl_proj
  intro s2 b
  rfl

theorem add_po_tso_executed (P : Program) (t i : Nat) (s : SState) :
    (add_po_tso P t i s).executed = s.executed := by
  unfold add_po_tso
  apply foldl_proj
  intro s2 b
  rfl

theorem add_po_tso_memvars (P : Program) (t i : Nat) (s : SState) :
    (add_po_tso P t i s).memvars = s.memvars := by
  unfold add_po_tso
  apply foldl_proj
  intro s2 b
  rfl

theorem add_po_tso_memvalues (P : Program) (t i : Nat) (s : SState) :
    (add_po_tso P t i s).memvalues = s.memvalues := by
  unfold add_po_tso
  apply foldl_proj
  intro s2 b
  rfl

theorem add_po_tso_loadvalues (P : Program) (t i : Nat) (s : SState) :
    (add_po_tso P t i s).loadvalues = s.loadvalues := by
  unfold add_po_tso
  apply foldl_proj
  intro s2 b
  rfl

theorem po_len1_remove_po (P : Program) (t i : Nat) (s : SState) :
    (remove_po P t i s).po.length = s.po.length := by
  unfold remove_po
  apply foldl_proj (fun x => x.po.length)
  intro s2 b
  exact po_len1_setPo s2 t b i false

theorem po_len2_remove_po (P : Program) (t i t' : Nat) (s : SState) :
    ((remove_po P t i s).po.getD t' []).length = (s.po.getD t' []).length := by
  unfold remove_po
  apply foldl_proj (fun x => (x.po.getD t' []).length)
  intro s2 b
  exact po_len2_setPo s2 t b i t' false

theorem po_len3_remove_po (P : Program) (t i t' d' : Nat) (s : SState) :
    (((remove_po P t i s).po.getD t' []).getD d' []).length =
      ((s.po.getD t' []).getD d' []).length := by
  unfold remove_po
  apply foldl_proj (fun x => ((x.po.getD t' []).getD d' []).length)
  intro s2 b
  exact po_len3_setPo s2 t b i t' d' false

theorem po_len1_add_po_ibm (P : Program) (t i : Nat) (s : SState) :
    (add_po_ibm P t i s).po.length = s.po.length := by
  unfold add_po_ibm
  apply foldl_proj (fun x => x.po.length)
  intro s2 b
  exact po_len1_setPo s2 t b i _

theorem po_len2_add_po_ibm (P : Program) (t i t' : Nat) (s : SState) :
    ((add_po_ibm P t i s).po.getD t' []).length = (s.po.getD t' []).length := by
  unfold add_po_ibm
  apply foldl_proj (fun x => (x.po.getD t' []).length)
  intro s2 b
  exact po_len2_setPo s2 t b i t' _

theorem po_len3_add_po_ibm (P : Program) (t i t' d' : Nat) (s : SState) :
    (((add_po_ibm P t i s).po.getD t' []).getD d' []).length =
      ((s.po.getD t' []).getD d' []).length := by
  unfold add_po_ibm
  apply foldl_proj (fun x => ((x.po.getD t' []).getD d' []).length)
  intro s2 b
  exact po_len3_setPo s2 t b i t' d' _

theorem po_len1_add_po_tso (P : Program) (t i : Nat) (s : SState) :
    (add_po_tso P t i s).po.length = s.po.length := by
  unfold add_po_tso
  apply foldl_proj (fun x => x.po.length)
  intro s2 b
  exact po_len1_setPo s2 t b i _

theorem po_len2_add_po_tso (P : Program) (t i t' : Nat) (s : SState) :
    ((add_po_tso P t i s).po.getD t' []).length = (s.po.getD t' []).length := by
  unfold add_po_tso
  apply foldl_proj (fun x => (x.po.getD t' []).length)
  intro s2 b
  exact po_len2_setPo s2 t b i t' _

theorem po_len3_add_po_tso (P : Program) (t i t' d' : Nat) (s : SState) :
    (((add_po_tso P t i s).po.getD t' []).getD d' []).length =
      ((s.po.getD t' []).getD d' []).length := by
  unfold add_po_tso
  apply foldl_proj (fun x => ((x.po.getD t' []).getD d' []).length)
  intro s2 b
  exact po_len3_setPo s2 t b i t' d' _

theorem getPo_add_po_ibm (P : Program) (s : SState) (t i t' d' i' : Nat)
    (hpoT : s.po.length = num_threads P)
    (hrow : (s.po.getD t []).length = num_instrs P t)
    (hcell : ∀ d, d < num_instrs P t → ((s.po.getD t []).getD d []).length = num_instrs P t)
    (ht : t < num_threads P) (hi : i < num_instrs P t)
    (ht' : t' < num_threads P) (hd' : d' < num_instrs P t') (hi' : i' < num_instrs P t') :
    getPo (add_po_ibm P t i s) t' d' i' =
      if t = t' ∧ i = i' then edge_ibm P t d' i else getPo s t' d' i' := by
  unfold add_po_ibm
  rw [getPo_foldl_col t i _ (List.range (num_instrs P t)) s t' d' i'
    (by rw [hpoT]; exact ht)
    (by intro d hd; rw [hrow]; exact List.mem_range.mp hd)
    (by intro d hd; rw [hcell d (List.mem_range.mp hd)]; exact hi)]
  by_cases hc : t = t' ∧ i = i'
  · rw [if_pos ⟨hc.1, hc.2, List.mem_range.mpr (hc.1 ▸ hd')⟩, if_pos hc]
  · rw [if_neg (fun hcon => hc ⟨hcon.1, hcon.2.1⟩), if_neg hc]

theorem getPo_add_po_tso (P : Program) (s : SState) (t i t' d' i' : Nat)
    (hpoT : s.po.length = num_threads P)
    (hrow : (s.po.getD t []).length = num_instrs P t)
    (hcell : ∀ d, d < num_instrs P t → ((s.po.getD t []).getD d []).length = num_instrs P t)
    (ht : t < num_threads P) (hi : i < num_instrs P t)
    (ht' : t' < num_threads P) (hd' : d' < num_instrs P t') (hi' : i' < num_instrs P t') :
    getPo (add_po_tso P t i s) t' d' i' =
      if t = t' ∧ i = i' then edge_tso P t d' i else getPo s t' d' i' := by
  unfold add_po_tso
  rw [getPo_foldl_col t i _ (List.range (num_instrs P t)) s t' d' i'
    (by rw [hpoT]; exact ht)
    (by intro d hd; rw [hrow]; exact List.mem_range.mp hd)
    (by intro d hd; rw [hcell d (List.mem_range.mp hd)]; exact hi)]
  by_cases hc : t = t' ∧ i = i'
  · rw [if_pos ⟨hc.1, hc.2, List.mem_range.mpr (hc.1 ▸ hd')⟩, if_pos hc]
  · rw [if_neg (fun hcon => hc ⟨hcon.1, hcon.2.1⟩), if_neg hc]

theorem getPo_remove_po (P : Program) (s : SState) (t i t' d' i' : Nat)
    (hpoT : s.po.length = num_threads P)
    (hrow : (s.po.getD t []).length = num_instrs P t)
    (hcell : ∀ d, d < num_instrs P t → ((s.po.getD t []).getD d []).length = num_instrs P t)
    (ht : t < num_threads P) (hi : i < num_instrs P t)
    (ht' : t' < num_threads P) (hd' : d' < num_instrs P t') (hi' : i' < num_instrs P t') :
    getPo (remove_po P t i s) t' d' i' =
      if t = t' ∧ i = i' ∧ i < d' then false else getPo s t' d' i' := by
  unfold remove_po
  rw [getPo_foldl_col t i _ _ s t' d' i'
    (by rw [hpoT]; exact ht)
    (by intro d hd; rw [hrow]; exact List.mem_range.mp (List.mem_filter.mp hd).1)
    (by intro d hd
        rw [hcell d (List.mem_range.mp (List.mem_filter.mp hd).1)]
        exact hi)]
  by_cases hc : t = t' ∧ i = i' ∧ i < d'
  · rw [if_pos ⟨hc.1, hc.2.1, List.mem_filter.mpr
      ⟨List.mem_range.mpr (hc.1 ▸ hd'), by simpa using hc.2.2⟩⟩, if_pos hc]
  · rw [if_neg (fun hcon => hc ⟨hcon.1, hcon.2.1, by
      have := (List.mem_filter.mp hcon.2.2).2
      simpa using this⟩), if_neg hc]

/-! ## Memory variable lookups -/

theorem memIdx_of_mem (l : List String) (var : String) (h : var ∈ l) :
    ∃ p, memIdx l var = some p ∧ p < l.length := by
  induction l with
  | nil => simp at h
  | cons v rest ih =>
    by_cases hv : (v == var) = true
    · exact ⟨0, by simp [memIdx, hv], by simp⟩
    · have hvr : var ∈ rest := by
        rcases List.mem_cons.mp h with h1 | h1
        · exact absurd (beq_iff_eq.mpr h1.symm) hv
        · exact h1
      obtain ⟨p, hp, hlt⟩ := ih hvr
      refine ⟨p + 1, by simp [memIdx, hv, hp], ?_⟩
      simp only [List.length_cons]
      omega

theorem get_memvar_eq (s : SState) (var : String) (p : Nat)
    (hidx : memIdx s.memvars var = some p) (hp : p < s.memvalues.length) :
    get_memvar s var = some (s.memvalues.getD p 0) := by
  unfold get_memvar
  rw [hidx, Option.some_bind, List.get?_eq_getElem?, List.getElem?_eq_getElem hp,
    getD_eq_getElem _ _ _ hp]

theorem update_memvar_eq (s : SState) (var : String) (value : Int) (p : Nat)
    (hidx : memIdx s.memvars var = some p) (hp : p < s.memvalues.length) :
    update_memvar var value s =
      some (s.memvalues.getD p 0,
        ⟨s.po, s.executed, s.memvars, s.memvalues.set p value, s.loadvalues⟩) := by
  unfold update_memvar
  rw [hidx, Option.some_bind, List.get?_eq_getElem?, List.getElem?_eq_getElem hp]
  rw [getD_eq_getElem _ _ _ hp]
  rfl

/-! ## The candidate list -/

theorem pairs_mem (P : Program) (t i : Nat) :
    (t, i) ∈ pairs P ↔ t < num_threads P ∧ i < num_instrs P t := by
  unfold pairs
  rw [List.mem_flatMap]
  constructor
  · rintro ⟨a, ha, hmem⟩
    rw [List.mem_map] at hmem
    obtain ⟨b, hb, heq⟩ := hmem
    obtain ⟨h1, h2⟩ := Prod.mk.injEq _ _ _ _ ▸ heq
    subst h1
    subst h2
    exact ⟨List.mem_range.mp ha, List.mem_range.mp hb⟩
  · rintro ⟨h1, h2⟩
    exact ⟨t, List.mem_range.mpr h1,
      List.mem_map.mpr ⟨i, List.mem_range.mpr h2, rfl⟩⟩

theorem pairs_nodup (P : Program) : (pairs P).Nodup := by
  unfold pairs
  rw [List.nodup_flatMap]
  constructor
  · intro t _
    exact (List.nodup_range _).map (fun a b hab => by simpa using hab)
  · apply List.Pairwise.imp _ (List.pairwise_lt_range (num_threads P))
    intro a b hab x hxa hxb
    rw [List.mem_map] at hxa hxb
    obtain ⟨u, _, hu⟩ := hxa
    obtain ⟨v, _, hv⟩ := hxb
    rw [← hv] at hu
    have : a = b := congrArg Prod.fst hu
    omega

/-! ## Counting unexecuted instructions -/

theorem countP_congr_on {α : Type} (l : List α) (p q : α → Bool)
    (h : ∀ x ∈ l, p x = q x) : l.countP p = l.countP q := by
  induction l with
  | nil => rfl
  | cons a l ih =>
    rw [List.countP_cons, List.countP_cons, h a (List.mem_cons_self _ _),
      ih (fun x hx => h x (List.mem_cons_of_mem _ hx))]

theorem countP_drop_one {α : Type} [DecidableEq α] : ∀ (l : List α), l.Nodup → ∀ (a : α), a ∈ l →
    ∀ (p q : α → Bool), p a = true → q a = false → (∀ x ∈ l, x ≠ a → p x = q x) →
    l.countP p = l.countP q + 1 := by
  intro l
  induction l with
  | nil => intro _ a ha; simp at ha
  | cons b l ih =>
    intro hnd a ha p q hpa hqa hother
    rw [List.countP_cons, List.countP_cons]
    by_cases hb : b = a
    · subst hb
      have hbl : b ∉ l := (List.nodup_cons.mp hnd).1
      have hcong : l.countP p = l.countP q :=
        countP_congr_on l p q
          (fun x hx => hother x (List.mem_cons_of_mem _ hx) (fun hxb => hbl (hxb ▸ hx)))
      rw [hcong, hpa, hqa]
      simp
    · have hal : a ∈ l := by
        rcases List.mem_cons.mp ha with h1 | h1
        · exact absurd h1.symm hb
        · exact h1
      have hpb : p b = q b := hother b (List.mem_cons_self _ _) hb
      rw [hpb, ih (List.nodup_cons.mp hnd).2 a hal p q hpa hqa
        (fun x hx hxa => hother x (List.mem_cons_of_mem _ hx) hxa)]
      exact Nat.add_right_comm _ _ _

theorem countP_pos_of_mem {α : Type} (l : List α) (a : α) (ha : a ∈ l) (p : α → Bool)
    (hpa : p a = true) : 1 ≤ l.countP p := by
  induction l with
  | nil => simp at ha
  | cons b l ih =>
    rw [List.countP_cons]
    rcases List.mem_cons.mp ha with h1 | h1
    · subst h1
      rw [hpa]
      simp
    · have := ih h1
      omega

/-! ## Congruences: each observer reads only some state components -/

theorem get_executed_congr (s1 s2 : SState) (h : s1.executed = s2.executed) (t i : Nat) :
    get_executed s1 t i = get_executed s2 t i := by
  unfold get_executed
  rw [h]

theorem unexec_congr (P : Program) (s1 s2 : SState) (h : s1.executed = s2.executed) :
    unexec P s1 = unexec P s2 := by
  unfold unexec
  exact countP_congr_on _ _ _ (fun ti _ => by rw [get_executed_congr s1 s2 h])

theorem all_executed_congr (P : Program) (s1 s2 : SState) (h : s1.executed = s2.executed) :
    all_executed P s1 = all_executed P s2 := by
  simp only [all_executed, get_executed, h]

theorem has_po_dependencies_congr (P : Program) (t x : Nat) (s1 s2 : SState)
    (h : s1.po = s2.po) :
    has_po_dependencies P t x s1 = has_po_dependencies P t x s2 := by
  simp only [has_po_dependencies, getPo, h]

theorem is_prevstore_executed_congr (P : Program) (t i : Nat) (s1 s2 : SState)
    (h : s1.executed = s2.executed) :
    is_prevstore_executed P t i s1 = is_prevstore_executed P t i s2 := by
  simp only [is_prevstore_executed, get_executed, h]

theorem get_memvar_congr (s1 s2 : SState) (h1 : s1.memvars = s2.memvars)
    (h2 : s1.memvalues = s2.memvalues) (var : String) :
    get_memvar s1 var = get_memvar s2 var := by
  unfold get_memvar
  rw [h1, h2]

theorem tso_load_value_congr (P : Program) (t i : Nat) (s1 s2 : SState)
    (hex : s1.executed = s2.executed) (hv : s1.memvars = s2.memvars)
    (hval : s1.memvalues = s2.memvalues) :
    tso_load_value P t i s1 = tso_load_value P t i s2 := by
  unfold tso_load_value
  rw [is_prevstore_executed_congr P t i s1 s2 hex, get_memvar_congr s1 s2 hv hval]

theorem print_mem_congr (s1 s2 : SState) (h1 : s1.memvars = s2.memvars)
    (h2 : s1.memvalues = s2.memvalues) : print_mem s1 = print_mem s2 := by
  simp only [print_mem, h1, h2]

theorem print_loads_congr (P : Program) (s1 s2 : SState)
    (h : s1.loadvalues = s2.loadvalues) : print_loads P s1 = print_loads P s2 := by
  simp only [print_loads, get_load, h]

theorem outcome_congr (P : Program) (s1 s2 : SState) (h1 : s1.memvars = s2.memvars)
    (h2 : s1.memvalues = s2.memvalues) (h3 : s1.loadvalues = s2.loadvalues) :
    outcome P s1 = outcome P s2 := by
  unfold outcome
  rw [print_mem_congr s1 s2 h1 h2, print_loads_congr P s1 s2 h3]

/-! ## Extensionality for nested lists -/

theorem list2_ext {α : Type} (d : α) (m1 m2 : List (List α))
    (hlen : m1.length = m2.length)
    (hrow : ∀ t, t < m1.length → (m1.getD t []).length = (m2.getD t []).length)
    (hval : ∀ t j, t < m1.length → j < (m1.getD t []).length →
      (m1.getD t []).getD j d = (m2.getD t []).getD j d) :
    m1 = m2 := by
  apply List.ext_getElem hlen
  intro t h1 h2
  have hr1 : m1.getD t [] = m1[t] := getD_eq_getElem _ _ _ h1
  have hr2 : m2.getD t [] = m2[t] := getD_eq_getElem _ _ _ h2
  apply List.ext_getElem
  · rw [← hr1, ← hr2]
    exact hrow t h1
  · intro j hj1 hj2
    have hv := hval t j h1 (by rw [hr1]; exact hj1)
    rw [hr1, hr2] at hv
    rw [getD_eq_getElem _ _ _ hj1, getD_eq_getElem _ _ _ hj2] at hv
    exact hv

theorem list3_ext (m1 m2 : List (List (List Bool)))
    (hlen : m1.length = m2.length)
    (hrow : ∀ t, t < m1.length → (m1.getD t []).length = (m2.getD t []).length)
    (hcell : ∀ t d, t < m1.length → d < (m1.getD t []).length →
      ((m1.getD t []).getD d []).length = ((m2.getD t []).getD d []).length)
    (hval : ∀ t d j, t < m1.length → d < (m1.getD t []).length →
      j < ((m1.getD t []).getD d []).length →
      ((m1.getD t []).getD d []).getD j false = ((m2.getD t []).getD d []).getD j false) :
    m1 = m2 := by
  apply List.ext_getElem hlen
  intro t h1 h2
  rw [← getD_eq_getElem m1 t [] h1, ← getD_eq_getElem m2 t [] h2]
  exact list2_ext false _ _ (hrow t h1) (fun dd hdd => hcell t dd h1 hdd)
    (fun dd j hdd hj => hval t dd j h1 hdd hj)


/-! ## Direct reads across the elementary writes -/

theorem get_executed_set (s : SState) (t i t' i' : Nat) (v : Bool) :
    get_executed (set_executed s t i v) t' i' =
      if t = t' ∧ i = i' ∧ t < s.executed.length ∧ i < (s.executed.getD t []).length then v
      else get_executed s t' i' := by
  unfold get_executed set_executed
  exact getD2_set2 _ _ _ _ _ _ _

theorem get_load_update (s : SState) (t i t' i' : Nat) (v : Int) :
    get_load ((update_load t i v s).2) t' i' =
      if t = t' ∧ i = i' ∧ t < s.loadvalues.length ∧ i < (s.loadvalues.getD t []).length then v
      else get_load s t' i' := by
  unfold get_load update_load
  exact getD2_set2 _ _ _ _ _ _ _

theorem get_load_congr (s1 s2 : SState) (h : s1.loadvalues = s2.loadvalues) (t i : Nat) :
    get_load s1 t i = get_load s2 t i := by
  unfold get_load
  rw [h]

theorem any_congr_on {α : Type} (l : List α) (p q : α → Bool)
    (h : ∀ x ∈ l, p x = q x) : l.any p = l.any q := by
  induction l with
  | nil => rfl
  | cons a l ih =>
    rw [List.any_cons, List.any_cons, h a (List.mem_cons_self _ _),
      ih (fun x hx => h x (List.mem_cons_of_mem _ hx))]

theorem is_prevstore_executed_set_self (P : Program) (s : SState) (t i : Nat) (v : Bool) :
    is_prevstore_executed P t i (set_executed s t i v) = is_prevstore_executed P t i s := by
  unfold is_prevstore_executed
  apply any_congr_on
  intro j hj
  have hji : j < i := List.mem_range.mp hj
  have : get_executed (set_executed s t i v) t j = get_executed s t j := by
    unfold get_executed set_executed
    exact getD2_set2_ne _ _ _ _ _ _ _ (fun hc => by omega)
  rw [this]

/-! ## Dimension preservation -/

theorem dims_ok_set_executed (P : Program) (s : SState) (t i : Nat) (v : Bool)
    (h : dims_ok P s) : dims_ok P (set_executed s t i v) := by
  obtain ⟨h1, h2, h3, h4, h5⟩ := h
  refine ⟨h1, ?_, h3, h4, ?_⟩
  · show (s.executed.set t _).length = _
    rw [List.length_set]
    exact h2
  · intro t' ht'
    obtain ⟨g1, g2, g3, g4⟩ := h5 t' ht'
    refine ⟨g1, ?_, g3, g4⟩
    show ((s.executed.set t _).getD t' []).length = _
    rw [len2_set2]
    exact g2

theorem dims_ok_update_load (P : Program) (s : SState) (t i : Nat) (v : Int)
    (h : dims_ok P s) : dims_ok P ((update_load t i v s).2) := by
  obtain ⟨h1, h2, h3, h4, h5⟩ := h
  refine ⟨h1, h2, ?_, h4, ?_⟩
  · show (s.loadvalues.set t _).length = _
    rw [List.length_set]
    exact h3
  · intro t' ht'
    obtain ⟨g1, g2, g3, g4⟩ := h5 t' ht'
    refine ⟨g1, g2, ?_, g4⟩
    show ((s.loadvalues.set t _).getD t' []).length = _
    rw [len2_set2]
    exact g3

theorem dims_ok_set_memvalues (P : Program) (s : SState) (p : Nat) (v : Int)
    (h : dims_ok P s) :
    dims_ok P ⟨s.po, s.executed, s.memvars, s.memvalues.set p v, s.loadvalues⟩ := by
  obtain ⟨h1, h2, h3, h4, h5⟩ := h
  exact ⟨h1, h2, h3, by rw [List.length_set]; exact h4, h5⟩

theorem dims_ok_setPo (P : Program) (s : SState) (t d i : Nat) (v : Bool)
    (h : dims_ok P s) : dims_ok P (setPo s t d i v) := by
  obtain ⟨h1, h2, h3, h4, h5⟩ := h
  refine ⟨by rw [po_len1_setPo]; exact h1, h2, h3, h4, ?_⟩
  intro t' ht'
  obtain ⟨g1, g2, g3, g4⟩ := h5 t' ht'
  refine ⟨by rw [po_len2_setPo]; exact g1, g2, g3, ?_⟩
  intro d' hd'
  rw [po_len3_setPo]
  exact g4 d' hd'

theorem dims_ok_remove_po (P : Program) (s : SState) (t i : Nat)
    (h : dims_ok P s) : dims_ok P (remove_po P t i s) := by
  unfold remove_po
  exact foldl_pres (dims_ok P) _ (fun s2 b hb => dims_ok_setPo P s2 t b i false hb) _ _ h

theorem dims_ok_add_po_ibm (P : Program) (s : SState) (t i : Nat)
    (h : dims_ok P s) : dims_ok P (add_po_ibm P t i s) := by
  unfold add_po_ibm
  exact foldl_pres (dims_ok P) _ (fun s2 b hb => dims_ok_setPo P s2 t b i _ hb) _ _ h

theorem dims_ok_add_po_tso (P : Program) (s : SState) (t i : Nat)
    (h : dims_ok P s) : dims_ok P (add_po_tso P t i s) := by
  unfold add_po_tso
  exact foldl_pres (dims_ok P) _ (fun s2 b hb => dims_ok_setPo P s2 t b i _ hb) _ _ h

/-! ## The measure across the marking step -/

theorem unexec_set_executed_true (P : Program) (s : SState) (t i : Nat)
    (ht : t < num_threads P) (hi : i < num_instrs P t)
    (hex : s.executed.length = num_threads P)
    (hrow : (s.executed.getD t []).length = num_instrs P t)
    (hne : get_executed s t i = false) :
    unexec P (set_executed s t i true) + 1 = unexec P s := by
  unfold unexec
  have hkey := countP_drop_one (pairs P) (pairs_nodup P) (t, i)
    ((pairs_mem P t i).mpr ⟨ht, hi⟩)
    (fun ti => !(get_executed s ti.1 ti.2))
    (fun ti => !(get_executed (set_executed s t i true) ti.1 ti.2))
    (by simp [hne])
    (by
      have hset : get_executed (set_executed s t i true) t i = true := by
        rw [get_executed_set]
        rw [if_pos ⟨rfl, rfl, by omega, by omega⟩]
      simp [hset])
    (by
      intro x _ hxa
      have heq : get_executed (set_executed s t i true) x.1 x.2 = get_executed s x.1 x.2 := by
        unfold get_executed set_executed
        refine getD2_set2_ne _ _ _ _ _ _ _ (fun hc => hxa ?_)
        obtain ⟨hc1, hc2⟩ := hc
        cases x
        simp_all
      simp only [heq])
  omega

theorem unexec_pos (P : Program) (s : SState) (t i : Nat)
    (ht : t < num_threads P) (hi : i < num_instrs P t)
    (hne : get_executed s t i = false) : 1 ≤ unexec P s :=
  countP_pos_of_mem _ (t, i) ((pairs_mem P t i).mpr ⟨ht, hi⟩) _ (by simp [hne])

/-! ## Invariant pieces across the execution step -/

theorem loads_zero_set_executed (P : Program) (s : SState) (t i : Nat)
    (h : loads_zero P s) : loads_zero P (set_executed s t i true) := by
  intro t' ht' i' hi' hne'
  have : get_executed s t' i' = false := by
    rw [get_executed_set] at hne'
    by_cases hc : t = t' ∧ i = i' ∧ t < s.executed.length ∧ i < (s.executed.getD t []).length
    · rw [if_pos hc] at hne'
      exact absurd hne' (by simp)
    · rwa [if_neg hc] at hne'
  have hl : get_load (set_executed s t i true) t' i' = get_load s t' i' := rfl
  rw [hl]
  exact h t' ht' i' hi' this

theorem loads_zero_update_load (P : Program) (s : SState) (t i : Nat) (v : Int)
    (hexec : get_executed s t i = true) (h : loads_zero P s) :
    loads_zero P ((update_load t i v s).2) := by
  intro t' ht' i' hi' hne'
  have hne2 : get_executed s t' i' = false := hne'
  have hti : ¬(t = t' ∧ i = i') := by
    rintro ⟨rfl, rfl⟩
    rw [hexec] at hne2
    exact absurd hne2 (by simp)
  have : get_load ((update_load t i v s).2) t' i' = get_load s t' i' := by
    unfold get_load update_load
    exact getD2_set2_ne _ _ _ _ _ _ _ hti
  rw [this]
  exact h t' ht' i' hi' hne2

theorem loads_zero_congr (P : Program) (s1 s2 : SState)
    (hex : s2.executed = s1.executed) (hlv : s2.loadvalues = s1.loadvalues)
    (h : loads_zero P s1) : loads_zero P s2 := by
  intro t' ht' i' hi' hne'
  rw [get_executed_congr s2 s1 hex] at hne'
  rw [get_load_congr s2 s1 hlv]
  exact h t' ht' i' hi' hne'

theorem registered_congr (P : Program) (s1 s2 : SState)
    (h : s2.memvars = s1.memvars) (hr : registered P s1) : registered P s2 := by
  intro t' ht' i' hi'
  rw [h]
  exact hr t' ht' i' hi'

theorem po_matches_after (P : Program) (edge : Program → Nat → Nat → Nat → Bool)
    (s : SState) (t i : Nat) (hdims : dims_ok P s) (hpo : po_matches P edge s)
    (ht : t < num_threads P) (hi : i < num_instrs P t)
    (hlow : ∀ d, edge P t d i = true → i < d) :
    po_matches P edge (remove_po P t i (set_executed s t i true)) := by
  obtain ⟨hp1, hp2, _, _, hp5⟩ := hdims
  intro t' ht' d' hd' i' hi'
  have hexA : (set_executed s t i true).po = s.po := rfl
  have hrm := getPo_remove_po P (set_executed s t i true) t i t' d' i'
    (by rw [hexA, hp1]) (by rw [hexA]; exact (hp5 t ht).1)
    (by intro d hd; rw [hexA]; exact (hp5 t ht).2.2.2 d hd) ht hi ht' hd' hi'
  rw [hrm]
  have hexr : (remove_po P t i (set_executed s t i true)).executed =
      (set_executed s t i true).executed := remove_po_executed _ _ _ _
  have hge : get_executed (remove_po P t i (set_executed s t i true)) t' i' =
      get_executed (set_executed s t i true) t' i' := get_executed_congr _ _ hexr t' i'
  rw [hge, get_executed_set]
  by_cases hc : t = t' ∧ i = i'
  · obtain ⟨rfl, rfl⟩ := hc
    have hT : t < s.executed.length := by rw [hp2]; exact ht
    have hI : i < (s.executed.getD t []).length := by rw [(hp5 t ht).2.1]; exact hi
    by_cases hd : i < d'
    · rw [if_pos (show t = t ∧ i = i ∧ i < d' from ⟨rfl, rfl, hd⟩)]
      rw [if_pos (show t = t ∧ i = i ∧ t < s.executed.length ∧
        i < (s.executed.getD t []).length from ⟨rfl, rfl, hT, hI⟩)]
      simp
    · rw [if_neg (show ¬(t = t ∧ i = i ∧ i < d') from fun hcon => hd hcon.2.2)]
      rw [if_pos (show t = t ∧ i = i ∧ t < s.executed.length ∧
        i < (s.executed.getD t []).length from ⟨rfl, rfl, hT, hI⟩)]
      have h0 : getPo (set_executed s t i true) t d' i = getPo s t d' i := rfl
      rw [h0, hpo t ht d' hd' i hi]
      have hedge : edge P t d' i = false := by
        by_cases he : edge P t d' i = true
        · exact absurd (hlow d' he) hd
        · simpa using he
      simp [hedge]
  · rw [if_neg (show ¬(t = t' ∧ i = i' ∧ i < d') from fun hcon => hc ⟨hcon.1, hcon.2.1⟩)]
    rw [if_neg (show ¬(t = t' ∧ i = i' ∧ t < s.executed.length ∧
      i < (s.executed.getD t []).length) from fun hcon => hc ⟨hcon.1, hcon.2.1⟩)]
    have h0 : getPo (set_executed s t i true) t' d' i' = getPo s t' d' i' := rfl
    rw [h0]
    exact hpo t' ht' d' hd' i' hi'

theorem edge_ibm_low (P : Program) (t d i : Nat) (h : edge_ibm P t d i = true) : i < d := by
  unfold edge_ibm at h
  simp only [Bool.and_eq_true, decide_eq_true_eq] at h
  exact h.1

theorem edge_tso_low (P : Program) (t d i : Nat) (h : edge_tso P t d i = true) : i < d := by
  unfold edge_tso at h
  simp only [Bool.and_eq_true, decide_eq_true_eq] at h
  exact h.1

theorem edge_tso_le_ibm (P : Program) (t d i : Nat) (h : edge_tso P t d i = true) :
    edge_ibm P t d i = true := by
  unfold edge_tso at h
  unfold edge_ibm
  simp only [Bool.and_eq_true] at h
  obtain ⟨h1, h2⟩ := h
  rw [h1, Bool.true_and]
  by_cases hst : (instr P t i).store
  · rw [if_pos hst] at h2 ⊢
    rw [h2]
    rfl
  · rw [if_neg hst]

/-! ## Restoring the state: the undo of one loop iteration -/

theorem executed_restore (s sX : SState) (t i : Nat)
    (hX : sX.executed = (set_executed s t i true).executed)
    (hne : get_executed s t i = false)
    (hT : t < s.executed.length) (hI : i < (s.executed.getD t []).length) :
    (set_executed sX t i false).executed = s.executed := by
  show sX.executed.set t ((sX.executed.getD t []).set i false) = s.executed
  rw [hX]
  show (s.executed.set t ((s.executed.getD t []).set i true)).set t
    (((s.executed.set t ((s.executed.getD t []).set i true)).getD t []).set i false) =
      s.executed
  rw [set2_collapse _ _ _ _ _ hT]
  have h0 : (false : Bool) = (s.executed.getD t []).getD i false := hne.symm
  rw [h0, set2_restore _ _ _ _ hT hI]

theorem loadvalues_restore (s sX : SState) (t i : Nat) (v : Int)
    (hX : sX.loadvalues = ((update_load t i v s).2).loadvalues)
    (hzero : get_load s t i = 0)
    (hT : t < s.loadvalues.length) (hI : i < (s.loadvalues.getD t []).length) :
    ((update_load t i 0 sX).2).loadvalues = s.loadvalues := by
  show sX.loadvalues.set t ((sX.loadvalues.getD t []).set i 0) = s.loadvalues
  rw [hX]
  show (s.loadvalues.set t ((s.loadvalues.getD t []).set i v)).set t
    (((s.loadvalues.set t ((s.loadvalues.getD t []).set i v)).getD t []).set i 0) =
      s.loadvalues
  rw [set2_collapse _ _ _ _ _ hT]
  have h0 : (0 : Int) = (s.loadvalues.getD t []).getD i 0 := hzero.symm
  rw [h0, set2_restore _ _ _ _ hT hI]

theorem memvalues_restore (mv : List Int) (p : Nat) (v : Int) (hp : p < mv.length) :
    (mv.set p v).set p (mv.getD p 0) = mv := by
  rw [List.set_set, set_getD_self _ _ _ hp]


/-! ## po-component congruence and full restoration -/

theorem setPo_po_congr (t d i : Nat) (v : Bool) (s1 s2 : SState) (h : s1.po = s2.po) :
    (setPo s1 t d i v).po = (setPo s2 t d i v).po := by
  simp only [setPo, h]

theorem foldl_setPo_congr (t i : Nat) (f : Nat → Bool) :
    ∀ (ds : List Nat) (s1 s2 : SState), s1.po = s2.po →
    (ds.foldl (fun sx d => setPo sx t d i (f d)) s1).po =
      (ds.foldl (fun sx d => setPo sx t d i (f d)) s2).po := by
  intro ds
  induction ds with
  | nil => intro s1 s2 h; exact h
  | cons d ds ih =>
    intro s1 s2 h
    simp only [List.foldl_cons]
    exact ih _ _ (setPo_po_congr t d i (f d) s1 s2 h)

theorem remove_po_po_congr (P : Program) (t i : Nat) (s1 s2 : SState) (h : s1.po = s2.po) :
    (remove_po P t i s1).po = (remove_po P t i s2).po :=
  foldl_setPo_congr t i (fun _ => false) _ s1 s2 h

theorem add_po_ibm_po_congr (P : Program) (t i : Nat) (s1 s2 : SState) (h : s1.po = s2.po) :
    (add_po_ibm P t i s1).po = (add_po_ibm P t i s2).po :=
  foldl_setPo_congr t i (fun d => edge_ibm P t d i) _ s1 s2 h

theorem add_po_tso_po_congr (P : Program) (t i : Nat) (s1 s2 : SState) (h : s1.po = s2.po) :
    (add_po_tso P t i s1).po = (add_po_tso P t i s2).po :=
  foldl_setPo_congr t i (fun d => edge_tso P t d i) _ s1 s2 h

theorem po_matches_congr (P : Program) (edge : Program → Nat → Nat → Nat → Bool)
    (s1 s2 : SState) (hpo : s2.po = s1.po) (hex : s2.executed = s1.executed)
    (h : po_matches P edge s1) : po_matches P edge s2 := by
  intro t' ht' d' hd' i' hi'
  have h1 : getPo s2 t' d' i' = getPo s1 t' d' i' := by unfold getPo; rw [hpo]
  rw [h1, get_executed_congr s2 s1 hex]
  exact h t' ht' d' hd' i' hi'

theorem po_restore_ibm (P : Program) (s : SState) (t i : Nat)
    (hdims : dims_ok P s) (hpo : po_matches P edge_ibm s)
    (ht : t < num_threads P) (hi : i < num_instrs P t)
    (hne : get_executed s t i = false) :
    (add_po_ibm P t i (remove_po P t i s)).po = s.po := by
  obtain ⟨hp1, hp2, hp3, hp4, hp5⟩ := hdims
  apply list3_ext
  · rw [po_len1_add_po_ibm, po_len1_remove_po]
  · intro t2 _
    rw [po_len2_add_po_ibm, po_len2_remove_po]
  · intro t2 d2 _ _
    rw [po_len3_add_po_ibm, po_len3_remove_po]
  · intro t2 d2 j ht2 hd2 hj
    rw [po_len1_add_po_ibm, po_len1_remove_po, hp1] at ht2
    rw [po_len2_add_po_ibm, po_len2_remove_po, (hp5 t2 ht2).1] at hd2
    rw [po_len3_add_po_ibm, po_len3_remove_po, (hp5 t2 ht2).2.2.2 d2 hd2] at hj
    show getPo (add_po_ibm P t i (remove_po P t i s)) t2 d2 j = getPo s t2 d2 j
    rw [getPo_add_po_ibm P (remove_po P t i s) t i t2 d2 j
      (by rw [po_len1_remove_po]; exact hp1)
      (by rw [po_len2_remove_po]; exact (hp5 t ht).1)
      (by intro d hd; rw [po_len3_remove_po]; exact (hp5 t ht).2.2.2 d hd)
      ht hi ht2 hd2 hj]
    rw [getPo_remove_po P s t i t2 d2 j hp1 (hp5 t ht).1
      (fun d hd => (hp5 t ht).2.2.2 d hd) ht hi ht2 hd2 hj]
    by_cases hc : t = t2 ∧ i = j
    · obtain ⟨rfl, rfl⟩ := hc
      rw [if_pos ⟨rfl, rfl⟩]
      rw [hpo t ht d2 hd2 i hi, hne]
      simp
    · rw [if_neg hc, if_neg (fun hcon => hc ⟨hcon.1, hcon.2.1⟩)]

theorem po_restore_tso (P : Program) (s : SState) (t i : Nat)
    (hdims : dims_ok P s) (hpo : po_matches P edge_tso s)
    (ht : t < num_threads P) (hi : i < num_instrs P t)
    (hne : get_executed s t i = false) :
    (add_po_tso P t i (remove_po P t i s)).po = s.po := by
  obtain ⟨hp1, hp2, hp3, hp4, hp5⟩ := hdims
  apply list3_ext
  · rw [po_len1_add_po_tso, po_len1_remove_po]
  · intro t2 _
    rw [po_len2_add_po_tso, po_len2_remove_po]
  · intro t2 d2 _ _
    rw [po_len3_add_po_tso, po_len3_remove_po]
  · intro t2 d2 j ht2 hd2 hj
    rw [po_len1_add_po_tso, po_len1_remove_po, hp1] at ht2
    rw [po_len2_add_po_tso, po_len2_remove_po, (hp5 t2 ht2).1] at hd2
    rw [po_len3_add_po_tso, po_len3_remove_po, (hp5 t2 ht2).2.2.2 d2 hd2] at hj
    show getPo (add_po_tso P t i (remove_po P t i s)) t2 d2 j = getPo s t2 d2 j
    rw [getPo_add_po_tso P (remove_po P t i s) t i t2 d2 j
      (by rw [po_len1_remove_po]; exact hp1)
      (by rw [po_len2_remove_po]; exact (hp5 t ht).1)
      (by intro d hd; rw [po_len3_remove_po]; exact (hp5 t ht).2.2.2 d hd)
      ht hi ht2 hd2 hj]
    rw [getPo_remove_po P s t i t2 d2 j hp1 (hp5 t ht).1
      (fun d hd => (hp5 t ht).2.2.2 d hd) ht hi ht2 hd2 hj]
    by_cases hc : t = t2 ∧ i = j
    · obtain ⟨rfl, rfl⟩ := hc
      rw [if_pos ⟨rfl, rfl⟩]
      rw [hpo t ht d2 hd2 i hi, hne]
      simp
    · rw [if_neg hc, if_neg (fun hcon => hc ⟨hcon.1, hcon.2.1⟩)]

/-! ## Unfolding equations of the searches -/

theorem exec_ibm_zero (P : Program) (s : SState) (sols : List String) :
    exec_ibm P 0 s sols = none := rfl

theorem exec_ibm_succ (P : Program) (fuel : Nat) (s : SState) (sols : List String) :
    exec_ibm P (fuel+1) s sols =
      (pairs P).foldlM (ibm_iter P (fun a b => exec_ibm P fuel a b)) (s, sols) := by
  rw [exec_ibm]

theorem exec_tso_zero (P : Program) (s : SState) (sols : List String) :
    exec_tso P 0 s sols = none := rfl

theorem exec_tso_succ (P : Program) (fuel : Nat) (s : SState) (sols : List String) :
    exec_tso P (fuel+1) s sols =
      (pairs P).foldlM (tso_iter P (fun a b => exec_tso P fuel a b)) (s, sols) := by
  rw [exec_tso]

theorem exec_tso_spec_succ (P : Program) (fuel : Nat) (s : SState) (sols : List String) :
    exec_tso_spec P (fuel+1) s sols =
      (pairs P).foldlM (tso_iter_spec P (fun a b => exec_tso_spec P fuel a b)) (s, sols) := by
  rw [exec_tso_spec]

theorem add_possible_execution_append (P : Program) (sols : List String) (s : SState) :
    ∃ d, add_possible_execution P sols s = sols ++ d := by
  unfold add_possible_execution
  split
  · exact ⟨[], (List.append_nil sols).symm⟩
  · exact ⟨[outcome P s], rfl⟩


set_option maxHeartbeats 1000000


theorem ibm_iter_restore (P : Program) (f : Nat)
    (ih : ∀ s2 sols2, inv P edge_ibm s2 → unexec P s2 < f →
      ∃ d, exec_ibm P f s2 sols2 = some (s2, sols2 ++ d)) :
    ∀ (s : SState) (sols : List String) (t i : Nat),
    inv P edge_ibm s → unexec P s ≤ f → t < num_threads P → i < num_instrs P t →
    ∃ d, ibm_iter P (fun a b => exec_ibm P f a b) (s, sols) (t, i) = some (s, sols ++ d) := by
  intro s sols t i hinv hf ht hi
  obtain ⟨hdims, hpo, hlz, hreg⟩ := hinv
  obtain ⟨hD1, hD2, hD3, hD4, hD5⟩ := hdims
  have hdims' : dims_ok P s := ⟨hD1, hD2, hD3, hD4, hD5⟩
  have hrowex : (s.executed.getD t []).length = num_instrs P t := (hD5 t ht).2.1
  by_cases hg : (!(get_executed s t i) && !(has_po_dependencies P t i s)) = true
  case neg =>
    refine ⟨[], ?_⟩
    simp only [ibm_iter, if_neg hg]
    simp
  case pos =>
    have hne : get_executed s t i = false := by
      rw [Bool.and_eq_true] at hg
      simpa using hg.1
    obtain ⟨p, hpidx, hplt⟩ := memIdx_of_mem s.memvars (instr P t i).mem (hreg t ht i hi)
    have hpmv : p < s.memvalues.length := by rw [hD4]; exact hplt
    have hTex : t < s.executed.length := by rw [hD2]; exact ht
    have hIex : i < (s.executed.getD t []).length := by rw [hrowex]; exact hi
    have huA : unexec P (set_executed s t i true) + 1 = unexec P s :=
      unexec_set_executed_true P s t i ht hi hD2 hrowex hne
    have hpos : 1 ≤ unexec P s := unexec_pos P s t i ht hi hne
    simp only [ibm_iter, if_pos hg]
    by_cases hst : (instr P t i).store = true
    · -- store case
      rw [if_pos hst]
      have hupd : update_memvar (instr P t i).mem (instr P t i).value (set_executed s t i true)
          = some (s.memvalues.getD p 0,
              ⟨(set_executed s t i true).po, (set_executed s t i true).executed,
               (set_executed s t i true).memvars, s.memvalues.set p (instr P t i).value,
               (set_executed s t i true).loadvalues⟩) :=
        update_memvar_eq (set_executed s t i true) _ _ p hpidx hpmv
      rw [hupd]
      simp only [Option.bind_eq_bind, Option.some_bind]
      set sA2 : SState :=
        ⟨(set_executed s t i true).po, (set_executed s t i true).executed,
         (set_executed s t i true).memvars, s.memvalues.set p (instr P t i).value,
         (set_executed s t i true).loadvalues⟩ with hsA2
      set sB : SState := remove_po P t i sA2 with hsB
      have hBdims : dims_ok P sB :=
        dims_ok_remove_po P sA2 t i
          (dims_ok_set_memvalues P (set_executed s t i true) p _
            (dims_ok_set_executed P s t i true hdims'))
      have hBex : sB.executed = (set_executed s t i true).executed := remove_po_executed P t i sA2
      have hBmv : sB.memvars = s.memvars := remove_po_memvars P t i sA2
      have hBmvals : sB.memvalues = s.memvalues.set p (instr P t i).value :=
        remove_po_memvalues P t i sA2
      have hBlv : sB.loadvalues = s.loadvalues := remove_po_loadvalues P t i sA2
      have hBpo : sB.po = (remove_po P t i s).po := remove_po_po_congr P t i sA2 s rfl
      have hpoB : po_matches P edge_ibm sB := by
        apply po_matches_congr P edge_ibm (remove_po P t i (set_executed s t i true)) sB
        · exact remove_po_po_congr P t i sA2 (set_executed s t i true) rfl
        · rw [hBex, remove_po_executed]
        · exact po_matches_after P edge_ibm s t i hdims' hpo ht hi
            (fun d hd => edge_ibm_low P t d i hd)
      have hlzB : loads_zero P sB :=
        loads_zero_congr P (set_executed s t i true) sB (by rw [hBex]) (by rw [hBlv]; rfl)
          (loads_zero_set_executed P s t i hlz)
      have hregB : registered P sB := registered_congr P s sB hBmv hreg
      have hinvB : inv P edge_ibm sB := ⟨hBdims, hpoB, hlzB, hregB⟩
      have huB : unexec P sB = unexec P (set_executed s t i true) := unexec_congr P sB _ hBex
      have hCpo : (add_po_ibm P t i sB).po = s.po := by
        rw [add_po_ibm_po_congr P t i sB (remove_po P t i s) hBpo]
        exact po_restore_ibm P s t i hdims' hpo ht hi hne
      have hupd2 : update_memvar (instr P t i).mem (s.memvalues.getD p 0) (add_po_ibm P t i sB)
          = some ((add_po_ibm P t i sB).memvalues.getD p 0,
              ⟨(add_po_ibm P t i sB).po, (add_po_ibm P t i sB).executed,
               (add_po_ibm P t i sB).memvars,
               (add_po_ibm P t i sB).memvalues.set p (s.memvalues.getD p 0),
               (add_po_ibm P t i sB).loadvalues⟩) := by
        apply update_memvar_eq
        · rw [add_po_ibm_memvars, hBmv]
          exact hpidx
        · rw [add_po_ibm_memvalues, hBmvals, List.length_set]
          exact hpmv
      have hfinal : set_executed
          (⟨(add_po_ibm P t i sB).po, (add_po_ibm P t i sB).executed,
            (add_po_ibm P t i sB).memvars,
            (add_po_ibm P t i sB).memvalues.set p (s.memvalues.getD p 0),
            (add_po_ibm P t i sB).loadvalues⟩ : SState) t i false = s := by
        apply SState.ext
        · show (add_po_ibm P t i sB).po = s.po
          exact hCpo
        · apply executed_restore s _ t i ?_ hne hTex hIex
          show (add_po_ibm P t i sB).executed = (set_executed s t i true).executed
          rw [add_po_ibm_executed]
          exact hBex
        · show (add_po_ibm P t i sB).memvars = s.memvars
          rw [add_po_ibm_memvars]
          exact hBmv
        · show (add_po_ibm P t i sB).memvalues.set p (s.memvalues.getD p 0) = s.memvalues
          rw [add_po_ibm_memvalues, hBmvals]
          exact memvalues_restore s.memvalues p _ hpmv
        · show (add_po_ibm P t i sB).loadvalues = s.loadvalues
          rw [add_po_ibm_loadvalues]
          exact hBlv
      by_cases hall : all_executed P sB = true
      · rw [if_pos hall, if_pos hst]
        obtain ⟨d0, hd0⟩ := add_possible_execution_append P sols sB
        refine ⟨d0, ?_⟩
        rw [hupd2]
        simp only [Option.map_some', Option.some_bind, Option.pure_def]
        rw [hfinal, hd0]
      · rw [if_neg hall]
        obtain ⟨d1, hrec⟩ := ih sB sols hinvB (by omega)
        refine ⟨d1, ?_⟩
        rw [hrec]
        simp only [Option.bind_eq_bind, Option.some_bind]
        rw [if_pos hst, hupd2]
        simp only [Option.map_some', Option.some_bind, Option.pure_def]
        rw [hfinal]
    · -- load case
      rw [if_neg hst]
      have hget : get_memvar (set_executed s t i true) (instr P t i).mem
          = some (s.memvalues.getD p 0) :=
        get_memvar_eq (set_executed s t i true) _ p hpidx hpmv
      rw [hget]
      simp only [Option.map_some', Option.bind_eq_bind, Option.some_bind]
      set sB : SState :=
        remove_po P t i (update_load t i (s.memvalues.getD p 0) (set_executed s t i true)).2
        with hsB
      have hBdims : dims_ok P sB :=
        dims_ok_remove_po P _ t i
          (dims_ok_update_load P (set_executed s t i true) t i _
            (dims_ok_set_executed P s t i true hdims'))
      have hBex : sB.executed = (set_executed s t i true).executed :=
        remove_po_executed P t i _
      have hBmv : sB.memvars = s.memvars := remove_po_memvars P t i _
      have hBmvals : sB.memvalues = s.memvalues := remove_po_memvalues P t i _
      have hBlv : sB.loadvalues =
          ((update_load t i (s.memvalues.getD p 0) s).2).loadvalues :=
        remove_po_loadvalues P t i _
      have hBpo : sB.po = (remove_po P t i s).po := remove_po_po_congr P t i _ s rfl
      have hpoB : po_matches P edge_ibm sB := by
        apply po_matches_congr P edge_ibm (remove_po P t i (set_executed s t i true)) sB
        · exact remove_po_po_congr P t i _ (set_executed s t i true) rfl
        · rw [hBex, remove_po_executed]
        · exact po_matches_after P edge_ibm s t i hdims' hpo ht hi
            (fun d hd => edge_ibm_low P t d i hd)
      have hexecA : get_executed (set_executed s t i true) t i = true := by
        rw [get_executed_set]
        rw [if_pos ⟨rfl, rfl, hTex, hIex⟩]
      have hlzB : loads_zero P sB :=
        loads_zero_congr P ((update_load t i (s.memvalues.getD p 0)
            (set_executed s t i true)).2) sB
          (remove_po_executed P t i _) (remove_po_loadvalues P t i _)
          (loads_zero_update_load P (set_executed s t i true) t i _ hexecA
            (loads_zero_set_executed P s t i hlz))
      have hregB : registered P sB := registered_congr P s sB hBmv hreg
      have hinvB : inv P edge_ibm sB := ⟨hBdims, hpoB, hlzB, hregB⟩
      have huB : unexec P sB = unexec P (set_executed s t i true) := unexec_congr P sB _ hBex
      have hCpo : (add_po_ibm P t i sB).po = s.po := by
        rw [add_po_ibm_po_congr P t i sB (remove_po P t i s) hBpo]
        exact po_restore_ibm P s t i hdims' hpo ht hi hne
      have hzero : get_load s t i = 0 := hlz t ht i hi hne
      have hTlv : t < s.loadvalues.length := by rw [hD3]; exact ht
      have hIlv : i < (s.loadvalues.getD t []).length := by
        rw [(hD5 t ht).2.2.1]
        exact hi
      have hlvC : (add_po_ibm P t i sB).loadvalues =
          ((update_load t i (s.memvalues.getD p 0) s).2).loadvalues := by
        rw [add_po_ibm_loadvalues]
        exact hBlv
      have hfinal : set_executed ((update_load t i 0 (add_po_ibm P t i sB)).2) t i false = s := by
        apply SState.ext
        · show (add_po_ibm P t i sB).po = s.po
          exact hCpo
        · apply executed_restore s _ t i ?_ hne hTex hIex
          show (add_po_ibm P t i sB).executed = (set_executed s t i true).executed
          rw [add_po_ibm_executed]
          exact hBex
        · show (add_po_ibm P t i sB).memvars = s.memvars
          rw [add_po_ibm_memvars]
          exact hBmv
        · show (add_po_ibm P t i sB).memvalues = s.memvalues
          rw [add_po_ibm_memvalues]
          exact hBmvals
        · show ((update_load t i 0 (add_po_ibm P t i sB)).2).loadvalues = s.loadvalues
          exact loadvalues_restore s (add_po_ibm P t i sB) t i (s.memvalues.getD p 0)
            hlvC hzero hTlv hIlv
      by_cases hall : all_executed P sB = true
      · rw [if_pos hall, if_neg hst]
        obtain ⟨d0, hd0⟩ := add_possible_execution_append P sols sB
        refine ⟨d0, ?_⟩
        simp only [Option.some_bind, Option.pure_def]
        rw [hfinal, hd0]
      · rw [if_neg hall]
        obtain ⟨d1, hrec⟩ := ih sB sols hinvB (by omega)
        refine ⟨d1, ?_⟩
        rw [hrec]
        simp only [Option.bind_eq_bind, Option.some_bind]
        rw [if_neg hst]
        simp only [Option.some_bind, Option.pure_def]
        rw [hfinal]



theorem ibm_fold_restore (P : Program) (f : Nat)
    (ih : ∀ s2 sols2, inv P edge_ibm s2 → unexec P s2 < f →
      ∃ d, exec_ibm P f s2 sols2 = some (s2, sols2 ++ d)) :
    ∀ (L : List (Nat × Nat)), (∀ ti ∈ L, ti ∈ pairs P) →
    ∀ (s : SState) (sols : List String), inv P edge_ibm s → unexec P s ≤ f →
    ∃ d, L.foldlM (ibm_iter P (fun a b => exec_ibm P f a b)) (s, sols) =
      some (s, sols ++ d) := by
  intro L
  induction L with
  | nil =>
    intro _ s sols _ _
    exact ⟨[], by simp⟩
  | cons ti L ihL =>
    intro hmem s sols hinv hf
    obtain ⟨t, i⟩ := ti
    have hran := (pairs_mem P t i).mp (hmem (t, i) (List.mem_cons_self _ _))
    obtain ⟨d1, hiter⟩ := ibm_iter_restore P f ih s sols t i hinv hf hran.1 hran.2
    obtain ⟨d2, hrest⟩ :=
      ihL (fun x hx => hmem x (List.mem_cons_of_mem _ hx)) s (sols ++ d1) hinv hf
    refine ⟨d1 ++ d2, ?_⟩
    rw [List.foldlM_cons, hiter]
    simp only [Option.bind_eq_bind, Option.some_bind]
    rw [hrest, List.append_assoc]

theorem exec_ibm_restore (P : Program) :
    ∀ (fuel : Nat) (s : SState) (sols : List String),
    inv P edge_ibm s → unexec P s < fuel →
    ∃ d, exec_ibm P fuel s sols = some (s, sols ++ d) := by
  intro fuel
  induction fuel with
  | zero =>
    intro s sols _ hf
    exact absurd hf (by omega)
  | succ f ihf =>
    intro s sols hinv hf
    rw [exec_ibm_succ]
    exact ibm_fold_restore P f ihf (pairs P) (fun _ hx => hx) s sols hinv (by omega)



theorem tso_iter_restore (P : Program) (f : Nat)
    (ih : ∀ s2 sols2, inv P edge_tso s2 → unexec P s2 < f →
      ∃ d, exec_tso P f s2 sols2 = some (s2, sols2 ++ d)) :
    ∀ (s : SState) (sols : List String) (t i : Nat),
    inv P edge_tso s → unexec P s ≤ f → t < num_threads P → i < num_instrs P t →
    ∃ d, tso_iter P (fun a b => exec_tso P f a b) (s, sols) (t, i) = some (s, sols ++ d) := by
  intro s sols t i hinv hf ht hi
  obtain ⟨hdims, hpo, hlz, hreg⟩ := hinv
  obtain ⟨hD1, hD2, hD3, hD4, hD5⟩ := hdims
  have hdims' : dims_ok P s := ⟨hD1, hD2, hD3, hD4, hD5⟩
  have hrowex : (s.executed.getD t []).length = num_instrs P t := (hD5 t ht).2.1
  by_cases hg : (!(get_executed s t i) && !(has_po_dependencies P t i s)) = true
  case neg =>
    refine ⟨[], ?_⟩
    simp only [tso_iter, if_neg hg]
    simp
  case pos =>
    have hne : get_executed s t i = false := by
      rw [Bool.and_eq_true] at hg
      simpa using hg.1
    obtain ⟨p, hpidx, hplt⟩ := memIdx_of_mem s.memvars (instr P t i).mem (hreg t ht i hi)
    have hpmv : p < s.memvalues.length := by rw [hD4]; exact hplt
    have hTex : t < s.executed.length := by rw [hD2]; exact ht
    have hIex : i < (s.executed.getD t []).length := by rw [hrowex]; exact hi
    have huA : unexec P (set_executed s t i true) + 1 = unexec P s :=
      unexec_set_executed_true P s t i ht hi hD2 hrowex hne
    have hpos : 1 ≤ unexec P s := unexec_pos P s t i ht hi hne
    have hzero : get_load s t i = 0 := hlz t ht i hi hne
    have hTlv : t < s.loadvalues.length := by rw [hD3]; exact ht
    have hIlv : i < (s.loadvalues.getD t []).length := by
      rw [(hD5 t ht).2.2.1]
      exact hi
    simp only [tso_iter, if_pos hg]
    set sB : SState := remove_po P t i (set_executed s t i true) with hsB
    have hBmv : sB.memvars = s.memvars := remove_po_memvars P t i _
    have hBmvals : sB.memvalues = s.memvalues := remove_po_memvalues P t i _
    have hBex : sB.executed = (set_executed s t i true).executed := remove_po_executed P t i _
    have hBlv : sB.loadvalues = s.loadvalues := remove_po_loadvalues P t i _
    have hBpo : sB.po = (remove_po P t i s).po := remove_po_po_congr P t i _ s rfl
    have hBdims : dims_ok P sB :=
      dims_ok_remove_po P _ t i (dims_ok_set_executed P s t i true hdims')
    have hpoB : po_matches P edge_tso sB :=
      po_matches_after P edge_tso s t i hdims' hpo ht hi (fun d hd => edge_tso_low P t d i hd)
    have hlzB : loads_zero P sB :=
      loads_zero_congr P (set_executed s t i true) sB hBex (by rw [hBlv]; rfl)
        (loads_zero_set_executed P s t i hlz)
    have hregB : registered P sB := registered_congr P s sB hBmv hreg
    have huB : unexec P sB = unexec P (set_executed s t i true) := unexec_congr P sB _ hBex
    have hexecA : get_executed (set_executed s t i true) t i = true := by
      rw [get_executed_set]
      rw [if_pos ⟨rfl, rfl, hTex, hIex⟩]
    have hexecB : get_executed sB t i = true := (get_executed_congr sB _ hBex t i).trans hexecA
    have hidxB : memIdx sB.memvars (instr P t i).mem = some p := by
      rw [hBmv]
      exact hpidx
    have hpB : p < sB.memvalues.length := by
      rw [hBmvals]
      exact hpmv
    have hold : get_memvar sB (instr P t i).mem = some (s.memvalues.getD p 0) := by
      have h1 := get_memvar_eq sB (instr P t i).mem p hidxB hpB
      rw [hBmvals] at h1
      exact h1
    rw [hold]
    simp only [Option.bind_eq_bind, Option.some_bind]
    by_cases hst : (instr P t i).store = true
    · -- store case
      rw [if_pos hst]
      have hupd : update_memvar (instr P t i).mem (instr P t i).value sB
          = some (sB.memvalues.getD p 0,
              ⟨sB.po, sB.executed, sB.memvars, sB.memvalues.set p (instr P t i).value,
               sB.loadvalues⟩) :=
        update_memvar_eq sB _ _ p hidxB hpB
      rw [hupd]
      simp only [Option.map_some', Option.bind_eq_bind, Option.some_bind]
      set sC : SState := ⟨sB.po, sB.executed, sB.memvars,
        sB.memvalues.set p (instr P t i).value, sB.loadvalues⟩ with hsC
      have hqn : ¬((!(instr P t i).store && is_prevstore P t i
          && !(is_prevstore_executed P t i sC)) = true) := by
        simp [hst]
      have hCdims : dims_ok P sC := dims_ok_set_memvalues P sB p _ hBdims
      have hpoC : po_matches P edge_tso sC := po_matches_congr P edge_tso sB sC rfl rfl hpoB
      have hlzC : loads_zero P sC := loads_zero_congr P sB sC rfl rfl hlzB
      have hregC : registered P sC := registered_congr P sB sC rfl hregB
      have hinvC : inv P edge_tso sC := ⟨hCdims, hpoC, hlzC, hregC⟩
      have huC : unexec P sC = unexec P (set_executed s t i true) := by
        rw [unexec_congr P sC sB rfl]
        exact huB
      have hupd2 : update_memvar (instr P t i).mem (s.memvalues.getD p 0) sC
          = some (sC.memvalues.getD p 0,
              ⟨sC.po, sC.executed, sC.memvars,
               sC.memvalues.set p (s.memvalues.getD p 0), sC.loadvalues⟩) := by
        apply update_memvar_eq sC _ _ p
        · exact hidxB
        · show p < (sB.memvalues.set p (instr P t i).value).length
          rw [List.length_set]
          exact hpB
      have hfinal : set_executed (add_po_tso P t i
          (⟨sC.po, sC.executed, sC.memvars,
            sC.memvalues.set p (s.memvalues.getD p 0), sC.loadvalues⟩ : SState)) t i false
          = s := by
        apply SState.ext
        · show (add_po_tso P t i (⟨sC.po, sC.executed, sC.memvars,
            sC.memvalues.set p (s.memvalues.getD p 0), sC.loadvalues⟩ : SState)).po = s.po
          rw [add_po_tso_po_congr P t i _ (remove_po P t i s) (by exact hBpo)]
          exact po_restore_tso P s t i hdims' hpo ht hi hne
        · apply executed_restore s _ t i ?_ hne hTex hIex
          show (add_po_tso P t i (⟨sC.po, sC.executed, sC.memvars,
            sC.memvalues.set p (s.memvalues.getD p 0), sC.loadvalues⟩ : SState)).executed
            = (set_executed s t i true).executed
          rw [add_po_tso_executed]
          exact hBex
        · show (add_po_tso P t i (⟨sC.po, sC.executed, sC.memvars,
            sC.memvalues.set p (s.memvalues.getD p 0), sC.loadvalues⟩ : SState)).memvars
            = s.memvars
          rw [add_po_tso_memvars]
          exact hBmv
        · show (add_po_tso P t i (⟨sC.po, sC.executed, sC.memvars,
            sC.memvalues.set p (s.memvalues.getD p 0), sC.loadvalues⟩ : SState)).memvalues
            = s.memvalues
          rw [add_po_tso_memvalues]
          show (sB.memvalues.set p (instr P t i).value).set p (s.memvalues.getD p 0)
            = s.memvalues
          rw [hBmvals]
          exact memvalues_restore s.memvalues p _ hpmv
        · show (add_po_tso P t i (⟨sC.po, sC.executed, sC.memvars,
            sC.memvalues.set p (s.memvalues.getD p 0), sC.loadvalues⟩ : SState)).loadvalues
            = s.loadvalues
          rw [add_po_tso_loadvalues]
          exact hBlv
      by_cases hall : all_executed P sC = true
      · rw [if_pos hall, if_neg hqn, if_pos hst, hupd2]
        simp only [Option.map_some', Option.bind_eq_bind, Option.some_bind, Option.pure_def]
        obtain ⟨d0, hd0⟩ := add_possible_execution_append P sols sC
        exact ⟨d0, by rw [hfinal, hd0]⟩
      · rw [if_neg hall]
        obtain ⟨d1, hrec⟩ := ih sC sols hinvC (by omega)
        rw [hrec]
        simp only [Option.bind_eq_bind, Option.some_bind]
        rw [if_neg hqn, if_pos hst, hupd2]
        simp only [Option.map_some', Option.bind_eq_bind, Option.some_bind, Option.pure_def]
        exact ⟨d1, by rw [hfinal]⟩
    · -- load case
      rw [if_neg hst]
      have hstf : (instr P t i).store = false := by
        simpa using hst
      by_cases hfwd : (is_prevstore P t i && !(is_prevstore_executed P t i sB)) = true
      · -- forwarding branch taken; the second recursion re-applies the same value
        have hv : tso_load_value P t i sB = some (get_prevstore P t i) := by
          unfold tso_load_value
          rw [if_pos hfwd]
        rw [hv]
        simp only [Option.map_some', Option.bind_eq_bind, Option.some_bind]
        set sC : SState := (update_load t i (get_prevstore P t i) sB).2 with hsC
        have hCdims : dims_ok P sC := dims_ok_update_load P sB t i _ hBdims
        have hpoC : po_matches P edge_tso sC := po_matches_congr P edge_tso sB sC rfl rfl hpoB
        have hlzC : loads_zero P sC := loads_zero_update_load P sB t i _ hexecB hlzB
        have hregC : registered P sC := registered_congr P sB sC rfl hregB
        have hinvC : inv P edge_tso sC := ⟨hCdims, hpoC, hlzC, hregC⟩
        have huC : unexec P sC = unexec P (set_executed s t i true) := by
          rw [unexec_congr P sC sB rfl]
          exact huB
        have hq : (!(instr P t i).store && is_prevstore P t i
            && !(is_prevstore_executed P t i sC)) = true := by
          have He : is_prevstore_executed P t i sC = is_prevstore_executed P t i sB :=
            is_prevstore_executed_congr P t i sC sB rfl
          rw [Bool.and_eq_true] at hfwd
          rw [He, hstf, hfwd.2]
          simp [hfwd.1]
        have hTlvB : t < sB.loadvalues.length := by
          rw [hBlv]
          exact hTlv
        have hE : (update_load t i (get_prevstore P t i) sC).2 = sC := by
          apply SState.ext
          · rfl
          · rfl
          · rfl
          · rfl
          · show (sB.loadvalues.set t ((sB.loadvalues.getD t []).set i (get_prevstore P t i))).set t
              (((sB.loadvalues.set t ((sB.loadvalues.getD t []).set i (get_prevstore P t i))).getD
                t []).set i (get_prevstore P t i))
              = sB.loadvalues.set t ((sB.loadvalues.getD t []).set i (get_prevstore P t i))
            exact set2_collapse sB.loadvalues t i _ _ hTlvB
        have hlvC : sC.loadvalues = ((update_load t i (get_prevstore P t i) s).2).loadvalues := by
          show sB.loadvalues.set t ((sB.loadvalues.getD t []).set i (get_prevstore P t i))
            = s.loadvalues.set t ((s.loadvalues.getD t []).set i (get_prevstore P t i))
          rw [hBlv]
        have hfinal : set_executed (add_po_tso P t i (update_load t i 0 sC).2) t i false = s := by
          apply SState.ext
          · show (add_po_tso P t i (update_load t i 0 sC).2).po = s.po
            rw [add_po_tso_po_congr P t i _ (remove_po P t i s) (by exact hBpo)]
            exact po_restore_tso P s t i hdims' hpo ht hi hne
          · apply executed_restore s _ t i ?_ hne hTex hIex
            show (add_po_tso P t i (update_load t i 0 sC).2).executed
              = (set_executed s t i true).executed
            rw [add_po_tso_executed]
            exact hBex
          · show (add_po_tso P t i (update_load t i 0 sC).2).memvars = s.memvars
            rw [add_po_tso_memvars]
            exact hBmv
          · show (add_po_tso P t i (update_load t i 0 sC).2).memvalues = s.memvalues
            rw [add_po_tso_memvalues]
            exact hBmvals
          · show (add_po_tso P t i (update_load t i 0 sC).2).loadvalues = s.loadvalues
            rw [add_po_tso_loadvalues]
            exact loadvalues_restore s sC t i (get_prevstore P t i) hlvC hzero hTlv hIlv
        by_cases hall : all_executed P sC = true
        · rw [if_pos hall, if_pos hq, hE, if_pos hall, if_neg hst]
          simp only [Option.some_bind, Option.pure_def]
          obtain ⟨d0, hd0⟩ := add_possible_execution_append P sols sC
          obtain ⟨d2, hd2⟩ := add_possible_execution_append P (sols ++ d0) sC
          refine ⟨d0 ++ d2, ?_⟩
          rw [hfinal, hd0, hd2, List.append_assoc]
        · rw [if_neg hall]
          obtain ⟨d1, hrec⟩ := ih sC sols hinvC (by omega)
          rw [hrec]
          simp only [Option.bind_eq_bind, Option.some_bind]
          rw [if_pos hq, hE, if_neg hall]
          obtain ⟨d2, hrec2⟩ := ih sC (sols ++ d1) hinvC (by omega)
          rw [hrec2]
          simp only [Option.bind_eq_bind, Option.some_bind]
          rw [if_neg hst]
          simp only [Option.some_bind, Option.pure_def]
          refine ⟨d1 ++ d2, ?_⟩
          rw [hfinal, List.append_assoc]
      · -- no forwarding: the load reads memory and there is no second branch
        have hv : tso_load_value P t i sB = some (s.memvalues.getD p 0) := by
          unfold tso_load_value
          rw [if_neg hfwd]
          exact hold
        rw [hv]
        simp only [Option.map_some', Option.bind_eq_bind, Option.some_bind]
        set sC : SState := (update_load t i (s.memvalues.getD p 0) sB).2 with hsC
        have hCdims : dims_ok P sC := dims_ok_update_load P sB t i _ hBdims
        have hpoC : po_matches P edge_tso sC := po_matches_congr P edge_tso sB sC rfl rfl hpoB
        have hlzC : loads_zero P sC := loads_zero_update_load P sB t i _ hexecB hlzB
        have hregC : registered P sC := registered_congr P sB sC rfl hregB
        have hinvC : inv P edge_tso sC := ⟨hCdims, hpoC, hlzC, hregC⟩
        have huC : unexec P sC = unexec P (set_executed s t i true) := by
          rw [unexec_congr P sC sB rfl]
          exact huB
        have hqn : ¬((!(instr P t i).store && is_prevstore P t i
            && !(is_prevstore_executed P t i sC)) = true) := by
          have He : is_prevstore_executed P t i sC = is_prevstore_executed P t i sB :=
            is_prevstore_executed_congr P t i sC sB rfl
          rw [He, hstf]
          intro hcon
          apply hfwd
          rw [Bool.and_eq_true] at hcon
          rw [Bool.and_eq_true] at hcon
          exact Bool.and_eq_true _ _ ▸ ⟨hcon.1.2, hcon.2⟩
        have hlvC : sC.loadvalues
            = ((update_load t i (s.memvalues.getD p 0) s).2).loadvalues := by
          show sB.loadvalues.set t ((sB.loadvalues.getD t []).set i (s.memvalues.getD p 0))
            = s.loadvalues.set t ((s.loadvalues.getD t []).set i (s.memvalues.getD p 0))
          rw [hBlv]
        have hfinal : set_executed (add_po_tso P t i (update_load t i 0 sC).2) t i false = s := by
          apply SState.ext
          · show (add_po_tso P t i (update_load t i 0 sC).2).po = s.po
            rw [add_po_tso_po_congr P t i _ (remove_po P t i s) (by exact hBpo)]
            exact po_restore_tso P s t i hdims' hpo ht hi hne
          · apply executed_restore s _ t i ?_ hne hTex hIex
            show (add_po_tso P t i (update_load t i 0 sC).2).executed
              = (set_executed s t i true).executed
            rw [add_po_tso_executed]
            exact hBex
          · show (add_po_tso P t i (update_load t i 0 sC).2).memvars = s.memvars
            rw [add_po_tso_memvars]
            exact hBmv
          · show (add_po_tso P t i (update_load t i 0 sC).2).memvalues = s.memvalues
            rw [add_po_tso_memvalues]
            exact hBmvals
          · show (add_po_tso P t i (update_load t i 0 sC).2).loadvalues = s.loadvalues
            rw [add_po_tso_loadvalues]
            exact loadvalues_restore s sC t i (s.memvalues.getD p 0) hlvC hzero hTlv hIlv
        by_cases hall : all_executed P sC = true
        · rw [if_pos hall, if_neg hqn, if_neg hst]
          simp only [Option.some_bind, Option.pure_def]
          obtain ⟨d0, hd0⟩ := add_possible_execution_append P sols sC
          exact ⟨d0, by rw [hfinal, hd0]⟩
        · rw [if_neg hall]
          obtain ⟨d1, hrec⟩ := ih sC sols hinvC (by omega)
          rw [hrec]
          simp only [Option.bind_eq_bind, Option.some_bind]
          rw [if_neg hqn, if_neg hst]
          simp only [Option.some_bind, Option.pure_def]
          exact ⟨d1, by rw [hfinal]⟩


theorem tso_fold_restore (P : Program) (f : Nat)
    (ih : ∀ s2 sols2, inv P edge_tso s2 → unexec P s2 < f →
      ∃ d, exec_tso P f s2 sols2 = some (s2, sols2 ++ d)) :
    ∀ (L : List (Nat × Nat)), (∀ ti ∈ L, ti ∈ pairs P) →
    ∀ (s : SState) (sols : List String), inv P edge_tso s → unexec P s ≤ f →
    ∃ d, L.foldlM (tso_iter P (fun a b => exec_tso P f a b)) (s, sols) =
      some (s, sols ++ d) := by
  intro L
  induction L with
  | nil =>
    intro _ s sols _ _
    exact ⟨[], by simp⟩
  | cons ti L ihL =>
    intro hmem s sols hinv hf
    obtain ⟨t, i⟩ := ti
    have hran := (pairs_mem P t i).mp (hmem (t, i) (List.mem_cons_self _ _))
    obtain ⟨d1, hiter⟩ := tso_iter_restore P f ih s sols t i hinv hf hran.1 hran.2
    obtain ⟨d2, hrest⟩ :=
      ihL (fun x hx => hmem x (List.mem_cons_of_mem _ hx)) s (sols ++ d1) hinv hf
    refine ⟨d1 ++ d2, ?_⟩
    rw [List.foldlM_cons, hiter]
    simp only [Option.bind_eq_bind, Option.some_bind]
    rw [hrest, List.append_assoc]

theorem exec_tso_restore (P : Program) :
    ∀ (fuel : Nat) (s : SState) (sols : List String),
    inv P edge_tso s → unexec P s < fuel →
    ∃ d, exec_tso P fuel s sols = some (s, sols ++ d) := by
  intro fuel
  induction fuel with
  | zero =>
    intro s sols _ hf
    exact absurd hf (by omega)
  | succ f ihf =>
    intro s sols hinv hf
    rw [exec_tso_succ]
    exact tso_fold_restore P f ihf (pairs P) (fun _ hx => hx) s sols hinv (by omega)



theorem foldl_pres_gen {σ β : Type} (Q : σ → Prop) (g : σ → β → σ)
    (h : ∀ s b, Q s → Q (g s b)) : ∀ (l : List β) (s : σ), Q s → Q (l.foldl g s) := by
  intro l
  induction l with
  | nil => intro s hs; exact hs
  | cons b l ih => intro s hs; exact ih _ (h s b hs)

theorem getD_map_range {α : Type} (n : Nat) (f : Nat → α) (t : Nat) (d : α) (h : t < n) :
    ((List.range n).map f).getD t d = f t := by
  have hlen : t < ((List.range n).map f).length := by
    rw [List.length_map, List.length_range]
    exact h
  rw [getD_eq_getElem _ _ _ hlen]
  rw [List.getElem_map]
  congr 1
  exact List.getElem_range _ _

theorem getD_replicate' {α : Type} (n i : Nat) (a d : α) (h : i < n) :
    (List.replicate n a).getD i d = a := by
  have hlen : i < (List.replicate n a).length := by
    rw [List.length_replicate]
    exact h
  rw [getD_eq_getElem _ _ _ hlen, List.getElem_replicate]

theorem insert_memvar_len (var : String) (mv : List String × List Int)
    (h : mv.2.length = mv.1.length) :
    (insert_memvar var mv).2.length = (insert_memvar var mv).1.length := by
  unfold insert_memvar
  split
  · exact h
  · simp [h]

theorem init_mem_len (P : Program) : (init_mem P).2.length = (init_mem P).1.length := by
  unfold init_mem
  exact foldl_pres_gen (fun mv => mv.2.length = mv.1.length) _
    (fun mv ti h => insert_memvar_len _ mv h) (pairs P) ([], []) rfl

theorem mem_insert_memvar_self (var : String) (mv : List String × List Int) :
    var ∈ (insert_memvar var mv).1 := by
  unfold insert_memvar
  split
  · next h => exact List.mem_of_elem_eq_true h
  · exact List.mem_append_right _ (List.mem_singleton.mpr rfl)

theorem mem_insert_memvar_mono (v var : String) (mv : List String × List Int)
    (h : v ∈ mv.1) : v ∈ (insert_memvar var mv).1 := by
  unfold insert_memvar
  split
  · exact h
  · exact List.mem_append_left _ h

theorem mem_init_mem_fold (P : Program) :
    ∀ (L : List (Nat × Nat)) (mv : List String × List Int) (ti : Nat × Nat), ti ∈ L →
    (instr P ti.1 ti.2).mem ∈
      ((L.foldl (fun mv2 ti2 => insert_memvar (instr P ti2.1 ti2.2).mem mv2) mv)).1 := by
  intro L
  induction L with
  | nil => intro mv ti h; simp at h
  | cons a L ih =>
    intro mv ti h
    rcases List.mem_cons.mp h with h1 | h1
    · subst h1
      rw [List.foldl_cons]
      exact foldl_pres_gen (fun mv2 => (instr P ti.1 ti.2).mem ∈ mv2.1) _
        (fun mv2 b hb => mem_insert_memvar_mono _ _ mv2 hb) L _
        (mem_insert_memvar_self _ mv)
    · rw [List.foldl_cons]
      exact ih _ ti h1

theorem registered_init_state (P : Program) : registered P (init_state P) := by
  intro t ht i hi
  show (instr P t i).mem ∈ (init_mem P).1
  unfold init_mem
  exact mem_init_mem_fold P (pairs P) ([], []) (t, i) ((pairs_mem P t i).mpr ⟨ht, hi⟩)

theorem dims_ok_init_state (P : Program) : dims_ok P (init_state P) := by
  refine ⟨?_, ?_, ?_, ?_, ?_⟩
  · show ((List.range (num_threads P)).map _).length = num_threads P
    rw [List.length_map, List.length_range]
  · show ((List.range (num_threads P)).map _).length = num_threads P
    rw [List.length_map, List.length_range]
  · show ((List.range (num_threads P)).map _).length = num_threads P
    rw [List.length_map, List.length_range]
  · exact init_mem_len P
  · intro t ht
    refine ⟨?_, ?_, ?_, ?_⟩
    · show (((List.range (num_threads P)).map _).getD t []).length = num_instrs P t
      rw [getD_map_range _ _ t _ ht, List.length_replicate]
    · show (((List.range (num_threads P)).map _).getD t []).length = num_instrs P t
      rw [getD_map_range _ _ t _ ht, List.length_replicate]
    · show (((List.range (num_threads P)).map _).getD t []).length = num_instrs P t
      rw [getD_map_range _ _ t _ ht, List.length_replicate]
    · intro d hd
      show (((((List.range (num_threads P)).map _).getD t []).getD d [])).length = num_instrs P t
      rw [getD_map_range _ _ t _ ht, getD_replicate' _ _ _ _ hd, List.length_replicate]

theorem getD2_map_replicate {α : Type} (n : Nat) (m : Nat → Nat) (a : α) (t i : Nat) (d : α) :
    (((List.range n).map (fun t2 => List.replicate (m t2) a)).getD t []).getD i d =
      if t < n ∧ i < m t then a else d := by
  by_cases ht : t < n
  · rw [getD_map_range _ _ t _ ht]
    by_cases hi : i < m t
    · rw [getD_replicate' _ _ _ _ hi, if_pos ⟨ht, hi⟩]
    · rw [List.getD_eq_getElem?_getD, List.getElem?_eq_none_iff.mpr (by
        rw [List.length_replicate]; omega), if_neg (fun hc => hi hc.2)]
      rfl
  · rw [List.getD_eq_getElem?_getD (l := ((List.range n).map _)),
      List.getElem?_eq_none_iff.mpr (by rw [List.length_map, List.length_range]; omega),
      if_neg (fun hc => ht hc.1)]
    rfl

theorem get_executed_init_state (P : Program) (t i : Nat) :
    get_executed (init_state P) t i = false := by
  show (((List.range (num_threads P)).map
      (fun t2 => List.replicate (num_instrs P t2) false)).getD t []).getD i false = false
  rw [getD2_map_replicate]
  split <;> rfl

theorem get_load_init_state (P : Program) (t i : Nat) :
    get_load (init_state P) t i = 0 := by
  show (((List.range (num_threads P)).map
      (fun t2 => List.replicate (num_instrs P t2) (0 : Int))).getD t []).getD i 0 = 0
  rw [getD2_map_replicate]
  split <;> rfl


theorem build_ibm_executed (P : Program) (s : SState) :
    (build_po_graph_ibm P s).executed = s.executed := by
  unfold build_po_graph_ibm
  apply foldl_proj (fun x => x.executed)
  intro s2 b
  exact add_po_ibm_executed P b.1 b.2 s2

theorem build_ibm_memvars (P : Program) (s : SState) :
    (build_po_graph_ibm P s).memvars = s.memvars := by
  unfold build_po_graph_ibm
  apply foldl_proj (fun x => x.memvars)
  intro s2 b
  exact add_po_ibm_memvars P b.1 b.2 s2

theorem build_ibm_memvalues (P : Program) (s : SState) :
    (build_po_graph_ibm P s).memvalues = s.memvalues := by
  unfold build_po_graph_ibm
  apply foldl_proj (fun x => x.memvalues)
  intro s2 b
  exact add_po_ibm_memvalues P b.1 b.2 s2

theorem build_ibm_loadvalues (P : Program) (s : SState) :
    (build_po_graph_ibm P s).loadvalues = s.loadvalues := by
  unfold build_po_graph_ibm
  apply foldl_proj (fun x => x.loadvalues)
  intro s2 b
  exact add_po_ibm_loadvalues P b.1 b.2 s2

theorem build_tso_executed (P : Program) (s : SState) :
    (build_po_graph_tso P s).executed = s.executed := by
  unfold build_po_graph_tso
  apply foldl_proj (fun x => x.executed)
  intro s2 b
  exact add_po_tso_executed P b.1 b.2 s2

theorem build_tso_memvars (P : Program) (s : SState) :
    (build_po_graph_tso P s).memvars = s.memvars := by
  unfold build_po_graph_tso
  apply foldl_proj (fun x => x.memvars)
  intro s2 b
  exact add_po_tso_memvars P b.1 b.2 s2

theorem build_tso_memvalues (P : Program) (s : SState) :
    (build_po_graph_tso P s).memvalues = s.memvalues := by
  unfold build_po_graph_tso
  apply foldl_proj (fun x => x.memvalues)
  intro s2 b
  exact add_po_tso_memvalues P b.1 b.2 s2

theorem build_tso_loadvalues (P : Program) (s : SState) :
    (build_po_graph_tso P s).loadvalues = s.loadvalues := by
  unfold build_po_graph_tso
  apply foldl_proj (fun x => x.loadvalues)
  intro s2 b
  exact add_po_tso_loadvalues P b.1 b.2 s2

theorem dims_ok_build_ibm (P : Program) (s : SState) (h : dims_ok P s) :
    dims_ok P (build_po_graph_ibm P s) := by
  unfold build_po_graph_ibm
  exact foldl_pres (dims_ok P) _ (fun s2 b hb => dims_ok_add_po_ibm P s2 b.1 b.2 hb) _ _ h

theorem dims_ok_build_tso (P : Program) (s : SState) (h : dims_ok P s) :
    dims_ok P (build_po_graph_tso P s) := by
  unfold build_po_graph_tso
  exact foldl_pres (dims_ok P) _ (fun s2 b hb => dims_ok_add_po_tso P s2 b.1 b.2 hb) _ _ h

theorem getPo_build_fold_ibm (P : Program) :
    ∀ (L : List (Nat × Nat)), (∀ ti ∈ L, ti ∈ pairs P) →
    ∀ (s : SState), dims_ok P s → ∀ t d i, t < num_threads P → d < num_instrs P t →
    i < num_instrs P t →
    getPo (L.foldl (fun s2 ti => add_po_ibm P ti.1 ti.2 s2) s) t d i =
      if (t, i) ∈ L then edge_ibm P t d i else getPo s t d i := by
  intro L
  induction L with
  | nil => intro _ s _ t d i _ _ _; simp
  | cons ti0 L ih =>
    intro hmem s hdims t d i ht hd hi
    obtain ⟨t0, i0⟩ := ti0
    have hr0 := (pairs_mem P t0 i0).mp (hmem (t0, i0) (List.mem_cons_self _ _))
    rw [List.foldl_cons]
    rw [ih (fun x hx => hmem x (List.mem_cons_of_mem _ hx)) _
      (dims_ok_add_po_ibm P s t0 i0 hdims) t d i ht hd hi]
    obtain ⟨hp1, _, _, _, hp5⟩ := hdims
    rw [getPo_add_po_ibm P s t0 i0 t d i hp1 (hp5 t0 hr0.1).1
      (fun d2 hd2 => (hp5 t0 hr0.1).2.2.2 d2 hd2) hr0.1 hr0.2 ht hd hi]
    by_cases hc : (t, i) ∈ L
    · rw [if_pos hc, if_pos (List.mem_cons_of_mem _ hc)]
    · rw [if_neg hc]
      by_cases hc2 : t0 = t ∧ i0 = i
      · obtain ⟨rfl, rfl⟩ := hc2
        rw [if_pos ⟨rfl, rfl⟩, if_pos (List.mem_cons_self _ _)]
      · rw [if_neg hc2, if_neg (by
          intro hcon
          rcases List.mem_cons.mp hcon with h1 | h1
          · obtain ⟨h2, h3⟩ := Prod.mk.injEq _ _ _ _ ▸ h1
            exact hc2 ⟨h2.symm, h3.symm⟩
          · exact hc h1)]

theorem getPo_build_fold_tso (P : Program) :
    ∀ (L : List (Nat × Nat)), (∀ ti ∈ L, ti ∈ pairs P) →
    ∀ (s : SState), dims_ok P s → ∀ t d i, t < num_threads P → d < num_instrs P t →
    i < num_instrs P t →
    getPo (L.foldl (fun s2 ti => add_po_tso P ti.1 ti.2 s2) s) t d i =
      if (t, i) ∈ L then edge_tso P t d i else getPo s t d i := by
  intro L
  induction L with
  | nil => intro _ s _ t d i _ _ _; simp
  | cons ti0 L ih =>
    intro hmem s hdims t d i ht hd hi
    obtain ⟨t0, i0⟩ := ti0
    have hr0 := (pairs_mem P t0 i0).mp (hmem (t0, i0) (List.mem_cons_self _ _))
    rw [List.foldl_cons]
    rw [ih (fun x hx => hmem x (List.mem_cons_of_mem _ hx)) _
      (dims_ok_add_po_tso P s t0 i0 hdims) t d i ht hd hi]
    obtain ⟨hp1, _, _, _, hp5⟩ := hdims
    rw [getPo_add_po_tso P s t0 i0 t d i hp1 (hp5 t0 hr0.1).1
      (fun d2 hd2 => (hp5 t0 hr0.1).2.2.2 d2 hd2) hr0.1 hr0.2 ht hd hi]
    by_cases hc : (t, i) ∈ L
    · rw [if_pos hc, if_pos (List.mem_cons_of_mem _ hc)]
    · rw [if_neg hc]
      by_cases hc2 : t0 = t ∧ i0 = i
      · obtain ⟨rfl, rfl⟩ := hc2
        rw [if_pos ⟨rfl, rfl⟩, if_pos (List.mem_cons_self _ _)]
      · rw [if_neg hc2, if_neg (by
          intro hcon
          rcases List.mem_cons.mp hcon with h1 | h1
          · obtain ⟨h2, h3⟩ := Prod.mk.injEq _ _ _ _ ▸ h1
            exact hc2 ⟨h2.symm, h3.symm⟩
          · exact hc h1)]

theorem getPo_init_ibm (P : Program) (t d i : Nat) (ht : t < num_threads P)
    (hd : d < num_instrs P t) (hi : i < num_instrs P t) :
    getPo (init_ibm P) t d i = edge_ibm P t d i := by
  unfold init_ibm build_po_graph_ibm
  rw [getPo_build_fold_ibm P (pairs P) (fun _ h => h) (init_state P)
    (dims_ok_init_state P) t d i ht hd hi]
  rw [if_pos ((pairs_mem P t i).mpr ⟨ht, hi⟩)]

theorem getPo_init_tso (P : Program) (t d i : Nat) (ht : t < num_threads P)
    (hd : d < num_instrs P t) (hi : i < num_instrs P t) :
    getPo (init_tso P) t d i = edge_tso P t d i := by
  unfold init_tso build_po_graph_tso
  rw [getPo_build_fold_tso P (pairs P) (fun _ h => h) (init_state P)
    (dims_ok_init_state P) t d i ht hd hi]
  rw [if_pos ((pairs_mem P t i).mpr ⟨ht, hi⟩)]

theorem inv_init_ibm (P : Program) : inv P edge_ibm (init_ibm P) := by
  refine ⟨dims_ok_build_ibm P _ (dims_ok_init_state P), ?_, ?_, ?_⟩
  · intro t ht d hd i hi
    rw [getPo_init_ibm P t d i ht hd hi]
    have hx : (init_ibm P).executed = (init_state P).executed :=
      build_ibm_executed P (init_state P)
    rw [get_executed_congr _ (init_state P) hx t i]
    rw [get_executed_init_state P t i]
    simp
  · apply loads_zero_congr P (init_state P) (init_ibm P)
      (build_ibm_executed P (init_state P)) (build_ibm_loadvalues P (init_state P))
    intro t ht i hi _
    exact get_load_init_state P t i
  · exact registered_congr P (init_state P) (init_ibm P)
      (build_ibm_memvars P (init_state P)) (registered_init_state P)

theorem inv_init_tso (P : Program) : inv P edge_tso (init_tso P) := by
  refine ⟨dims_ok_build_tso P _ (dims_ok_init_state P), ?_, ?_, ?_⟩
  · intro t ht d hd i hi
    rw [getPo_init_tso P t d i ht hd hi]
    have hx : (init_tso P).executed = (init_state P).executed :=
      build_tso_executed P (init_state P)
    rw [get_executed_congr _ (init_state P) hx t i]
    rw [get_executed_init_state P t i]
    simp
  · apply loads_zero_congr P (init_state P) (init_tso P)
      (build_tso_executed P (init_state P)) (build_tso_loadvalues P (init_state P))
    intro t ht i hi _
    exact get_load_init_state P t i
  · exact registered_congr P (init_state P) (init_tso P)
      (build_tso_memvars P (init_state P)) (registered_init_state P)

theorem unexec_le_total (P : Program) (s : SState) : unexec P s ≤ total_instrs P :=
  List.countP_le_length _



theorem set_executed_false_noop (s : SState) (t i : Nat)
    (hT : t < s.executed.length) (hI : i < (s.executed.getD t []).length)
    (h : get_executed s t i = false) : set_executed s t i false = s := by
  apply SState.ext
  · rfl
  · show s.executed.set t ((s.executed.getD t []).set i false) = s.executed
    have h0 : (false : Bool) = (s.executed.getD t []).getD i false := h.symm
    rw [h0, set2_restore _ _ _ _ hT hI]
  · rfl
  · rfl
  · rfl

theorem reset_noop_fold (P : Program) :
    ∀ (L : List (Nat × Nat)), (∀ ti ∈ L, ti ∈ pairs P) →
    ∀ (s : SState), dims_ok P s →
    (∀ t i, t < num_threads P → i < num_instrs P t → get_executed s t i = false) →
    L.foldl (fun s2 ti => set_executed s2 ti.1 ti.2 false) s = s := by
  intro L
  induction L with
  | nil => intro _ s _ _; rfl
  | cons ti L ih =>
    intro hmem s hdims hex
    obtain ⟨t, i⟩ := ti
    have hr := (pairs_mem P t i).mp (hmem (t, i) (List.mem_cons_self _ _))
    rw [List.foldl_cons]
    have hnoop : set_executed s t i false = s :=
      set_executed_false_noop s t i
        (by rw [hdims.2.1]; exact hr.1)
        (by rw [(hdims.2.2.2.2 t hr.1).2.1]; exact hr.2)
        (hex t i hr.1 hr.2)
    rw [hnoop]
    exact ih (fun x hx => hmem x (List.mem_cons_of_mem _ hx)) s hdims hex

theorem reset_executed_init_ibm (P : Program) :
    reset_executed P (init_ibm P) = init_ibm P := by
  unfold reset_executed
  apply reset_noop_fold P (pairs P) (fun _ h => h) (init_ibm P)
    (dims_ok_build_ibm P _ (dims_ok_init_state P))
  intro t i ht hi
  have hx : (init_ibm P).executed = (init_state P).executed :=
    build_ibm_executed P (init_state P)
  rw [get_executed_congr _ (init_state P) hx t i]
  exact get_executed_init_state P t i

theorem po_len1_build_tso (P : Program) (s : SState) :
    (build_po_graph_tso P s).po.length = s.po.length := by
  unfold build_po_graph_tso
  apply foldl_proj (fun x => x.po.length)
  intro s2 b
  exact po_len1_add_po_tso P b.1 b.2 s2

theorem po_len2_build_tso (P : Program) (s : SState) (t' : Nat) :
    ((build_po_graph_tso P s).po.getD t' []).length = (s.po.getD t' []).length := by
  unfold build_po_graph_tso
  apply foldl_proj (fun x => (x.po.getD t' []).length)
  intro s2 b
  exact po_len2_add_po_tso P b.1 b.2 t' s2

theorem po_len3_build_tso (P : Program) (s : SState) (t' d' : Nat) :
    (((build_po_graph_tso P s).po.getD t' []).getD d' []).length =
      ((s.po.getD t' []).getD d' []).length := by
  unfold build_po_graph_tso
  apply foldl_proj (fun x => ((x.po.getD t' []).getD d' []).length)
  intro s2 b
  exact po_len3_add_po_tso P b.1 b.2 t' d' s2

theorem build_tso_agree (P : Program) (s1 s2 : SState)
    (h1 : dims_ok P s1) (h2 : dims_ok P s2)
    (hex : s1.executed = s2.executed) (hmv : s1.memvars = s2.memvars)
    (hmvals : s1.memvalues = s2.memvalues) (hlv : s1.loadvalues = s2.loadvalues) :
    build_po_graph_tso P s1 = build_po_graph_tso P s2 := by
  apply SState.ext
  · apply list3_ext
    · rw [po_len1_build_tso, po_len1_build_tso, h1.1, h2.1]
    · intro t2 ht2
      rw [po_len1_build_tso, h1.1] at ht2
      rw [po_len2_build_tso, po_len2_build_tso, (h1.2.2.2.2 t2 ht2).1, (h2.2.2.2.2 t2 ht2).1]
    · intro t2 d2 ht2 hd2
      rw [po_len1_build_tso, h1.1] at ht2
      rw [po_len2_build_tso, (h1.2.2.2.2 t2 ht2).1] at hd2
      rw [po_len3_build_tso, po_len3_build_tso,
        (h1.2.2.2.2 t2 ht2).2.2.2 d2 hd2, (h2.2.2.2.2 t2 ht2).2.2.2 d2 hd2]
    · intro t2 d2 j ht2 hd2 hj
      rw [po_len1_build_tso, h1.1] at ht2
      rw [po_len2_build_tso, (h1.2.2.2.2 t2 ht2).1] at hd2
      rw [po_len3_build_tso, (h1.2.2.2.2 t2 ht2).2.2.2 d2 hd2] at hj
      show getPo (build_po_graph_tso P s1) t2 d2 j = getPo (build_po_graph_tso P s2) t2 d2 j
      unfold build_po_graph_tso
      rw [getPo_build_fold_tso P (pairs P) (fun _ h => h) s1 h1 t2 d2 j ht2 hd2 hj]
      rw [getPo_build_fold_tso P (pairs P) (fun _ h => h) s2 h2 t2 d2 j ht2 hd2 hj]
      rw [if_pos ((pairs_mem P t2 j).mpr ⟨ht2, hj⟩), if_pos ((pairs_mem P t2 j).mpr ⟨ht2, hj⟩)]
  · rw [build_tso_executed, build_tso_executed, hex]
  · rw [build_tso_memvars, build_tso_memvars, hmv]
  · rw [build_tso_memvalues, build_tso_memvalues, hmvals]
  · rw [build_tso_loadvalues, build_tso_loadvalues, hlv]

theorem st1_eq_init_tso (P : Program) :
    build_po_graph_tso P (reset_executed P (init_ibm P)) = init_tso P := by
  rw [reset_executed_init_ibm P]
  show build_po_graph_tso P (init_ibm P) = build_po_graph_tso P (init_state P)
  exact build_tso_agree P (init_ibm P) (init_state P)
    (dims_ok_build_ibm P _ (dims_ok_init_state P)) (dims_ok_init_state P)
    (build_ibm_executed P _) (build_ibm_memvars P _) (build_ibm_memvalues P _)
    (build_ibm_loadvalues P _)

theorem run_main_eq (P : Program) :
    ∃ dI dT, run_main P = some (dI, (dT, dT.map (fun o => (o, !(dI.contains o))))) ∧
      exec_ibm P (total_instrs P + 1) (init_ibm P) [] = some (init_ibm P, dI) ∧
      exec_tso P (total_instrs P + 1) (init_tso P) [] = some (init_tso P, dT) := by
  obtain ⟨dI, hI⟩ := exec_ibm_restore P (total_instrs P + 1) (init_ibm P) []
    (inv_init_ibm P) (by have := unexec_le_total P (init_ibm P); omega)
  obtain ⟨dT, hT⟩ := exec_tso_restore P (total_instrs P + 1) (init_tso P) []
    (inv_init_tso P) (by have := unexec_le_total P (init_tso P); omega)
  rw [List.nil_append] at hI hT
  refine ⟨dI, dT, ?_, hI, hT⟩
  unfold run_main
  rw [hI]
  simp only [Option.bind_eq_bind, Option.some_bind]
  rw [st1_eq_init_tso P, hT]
  simp only [Option.some_bind, Option.pure_def]



set_option maxHeartbeats 4000000
theorem mem_add_possible_execution (P : Program) (sols : List String) (s : SState)
    (o : String) :
    o ∈ add_possible_execution P sols s ↔ o ∈ sols ∨ o = outcome P s := by
  unfold add_possible_execution
  split
  · next h =>
    constructor
    · exact Or.inl
    · rintro (h1 | h1)
      · exact h1
      · subst h1
        exact List.mem_of_elem_eq_true h
  · rw [List.mem_append, List.mem_singleton]

theorem has_po_eq_edge (P : Program) (edge : Program → Nat → Nat → Nat → Bool)
    (s : SState) (t x : Nat) (hpo : po_matches P edge s)
    (ht : t < num_threads P) (hx : x < num_instrs P t) :
    has_po_dependencies P t x s =
      (List.range (num_instrs P t)).any (fun d => edge P t x d && !(get_executed s t d)) := by
  unfold has_po_dependencies
  apply any_congr_on
  intro d hd
  exact hpo t ht x hx d (List.mem_range.mp hd)

theorem nodep_prev_executed (P : Program) (s : SState) (t i : Nat)
    (hpo : po_matches P edge_ibm s) (ht : t < num_threads P) (hi : i < num_instrs P t)
    (hnodep : has_po_dependencies P t i s = false) :
    ∀ j, j < i → (instr P t j).store = true →
    ((instr P t j).mem == (instr P t i).mem) = true → get_executed s t j = true := by
  intro j hj hjst hjmem
  have hji : j < num_instrs P t := by omega
  rw [has_po_eq_edge P edge_ibm s t i hpo ht hi] at hnodep
  rw [List.any_eq_false] at hnodep
  have hedge : edge_ibm P t i j = true := by
    unfold edge_ibm
    rw [if_pos hjst, hjmem]
    simp [hj]
  have := hnodep j (List.mem_range.mpr hji)
  rw [hedge] at this
  simp at this
  exact this



theorem iter_subset_ibm_tso (P : Program) (f : Nat)
    (IH : ∀ si st solsI solsT,
      inv P edge_ibm si → inv P edge_tso st →
      si.executed = st.executed → si.memvars = st.memvars → si.memvalues = st.memvalues →
      si.loadvalues = st.loadvalues → (∀ o2 ∈ solsI, o2 ∈ solsT) → unexec P si < f →
      ∀ o2 rI rT, exec_ibm P f si solsI = some rI → exec_tso P f st solsT = some rT →
        o2 ∈ rI.2 → o2 ∈ rT.2) :
    ∀ (si st : SState) (solsI solsT : List String) (t i : Nat),
    inv P edge_ibm si → inv P edge_tso st →
    si.executed = st.executed → si.memvars = st.memvars → si.memvalues = st.memvalues →
    si.loadvalues = st.loadvalues → (∀ o2 ∈ solsI, o2 ∈ solsT) → unexec P si ≤ f →
    t < num_threads P → i < num_instrs P t →
    ∀ o rI rT, ibm_iter P (fun a b => exec_ibm P f a b) (si, solsI) (t, i) = some rI →
      tso_iter P (fun a b => exec_tso P f a b) (st, solsT) (t, i) = some rT →
      o ∈ rI.2 → o ∈ rT.2 := by
  intro si st solsI solsT t i hinvI hinvT hex hmv hmvals hlv hsub hf ht hi o rI rT hI hT ho
  obtain ⟨hdimsI, hpoI, hlzI, hregI⟩ := hinvI
  obtain ⟨hdimsT, hpoT, hlzT, hregT⟩ := hinvT
  have hinvI2 : inv P edge_ibm si := ⟨hdimsI, hpoI, hlzI, hregI⟩
  have hinvT2 : inv P edge_tso st := ⟨hdimsT, hpoT, hlzT, hregT⟩
  have huST : unexec P st = unexec P si := unexec_congr P st si hex.symm
  by_cases hgI : (!(get_executed si t i) && !(has_po_dependencies P t i si)) = true
  case neg =>
    -- candidate not eligible in the IBM370 search: nothing new on the left
    simp only [ibm_iter, if_neg hgI] at hI
    have hrI : rI = (si, solsI) := by
      have := Option.some.inj (by simpa using hI)
      exact this.symm ▸ rfl
    obtain ⟨dT1, hiterT⟩ := tso_iter_restore P f
      (fun s2 sols2 h1 h2 => exec_tso_restore P f s2 sols2 h1 h2) st solsT t i hinvT2
      (by omega) ht hi
    rw [hiterT] at hT
    have hrT : rT = (st, solsT ++ dT1) := (Option.some.inj hT).symm
    rw [hrT]
    rw [hrI] at ho
    exact List.mem_append_left _ (hsub o ho)
  case pos =>
    have hneI : get_executed si t i = false := by
      rw [Bool.and_eq_true] at hgI
      simpa using hgI.1
    have hnodepI : has_po_dependencies P t i si = false := by
      rw [Bool.and_eq_true] at hgI
      simpa using hgI.2
    have hneT : get_executed st t i = false := by
      rw [get_executed_congr st si hex.symm]
      exact hneI
    have hnodepT : has_po_dependencies P t i st = false := by
      rw [has_po_eq_edge P edge_tso st t i hpoT ht hi]
      rw [List.any_eq_false]
      intro d hd
      rw [has_po_eq_edge P edge_ibm si t i hpoI ht hi, List.any_eq_false] at hnodepI
      have hdI := hnodepI d hd
      by_cases he : edge_tso P t i d = true
      · have heI : edge_ibm P t i d = true := edge_tso_le_ibm P t i d he
        rw [heI] at hdI
        simp only [Bool.true_and] at hdI
        rw [he]
        simp only [Bool.true_and]
        rw [get_executed_congr st si hex.symm]
        simpa using hdI
      · simp only [Bool.not_eq_true] at he
        rw [he]
        simp
    have hgT : (!(get_executed st t i) && !(has_po_dependencies P t i st)) = true := by
      rw [hneT, hnodepT]
      rfl
    -- shared index of the instruction's location
    obtain ⟨p, hpidx, hplt⟩ := memIdx_of_mem si.memvars (instr P t i).mem (hregI t ht i hi)
    have hpmvI : p < si.memvalues.length := by rw [hdimsI.2.2.2.1]; exact hplt
    have hpmvT : p < st.memvalues.length := by rw [← hmvals]; exact hpmvI
    have hpidxT : memIdx st.memvars (instr P t i).mem = some p := by rw [← hmv]; exact hpidx
    simp only [ibm_iter, if_pos hgI] at hI
    simp only [tso_iter, if_pos hgT] at hT
    -- the TSO body reads the pre-store value first
    set sBt : SState := remove_po P t i (set_executed st t i true) with hsBt
    have hBtmv : sBt.memvars = st.memvars := remove_po_memvars P t i _
    have hBtmvals : sBt.memvalues = st.memvalues := remove_po_memvalues P t i _
    have hBtex : sBt.executed = (set_executed st t i true).executed := remove_po_executed P t i _
    have hBtlv : sBt.loadvalues = st.loadvalues := remove_po_loadvalues P t i _
    have hBtpo : sBt.po = (remove_po P t i st).po := remove_po_po_congr P t i _ st rfl
    have hBtdims : dims_ok P sBt :=
      dims_ok_remove_po P _ t i (dims_ok_set_executed P st t i true hdimsT)
    have hpoBt : po_matches P edge_tso sBt :=
      po_matches_after P edge_tso st t i hdimsT hpoT ht hi (fun d hd => edge_tso_low P t d i hd)
    have hlzBt : loads_zero P sBt :=
      loads_zero_congr P (set_executed st t i true) sBt hBtex (by rw [hBtlv]; rfl)
        (loads_zero_set_executed P st t i hlzT)
    have hregBt : registered P sBt := registered_congr P st sBt hBtmv hregT
    have hidxBt : memIdx sBt.memvars (instr P t i).mem = some p := by
      rw [hBtmv]
      exact hpidxT
    have hpBt : p < sBt.memvalues.length := by
      rw [hBtmvals]
      exact hpmvT
    have holdT : get_memvar sBt (instr P t i).mem = some (si.memvalues.getD p 0) := by
      have h1 := get_memvar_eq sBt (instr P t i).mem p hidxBt hpBt
      rw [hBtmvals, ← hmvals] at h1
      exact h1
    rw [holdT] at hT
    simp only [Option.bind_eq_bind, Option.some_bind] at hT
    -- the executed components of the two marked states agree
    have hsetex : (set_executed si t i true).executed = (set_executed st t i true).executed := by
      show si.executed.set t ((si.executed.getD t []).set i true)
        = st.executed.set t ((st.executed.getD t []).set i true)
      rw [hex]
    have hexecAT : get_executed (set_executed st t i true) t i = true := by
      rw [get_executed_set]
      rw [if_pos ⟨rfl, rfl, by rw [hdimsT.2.1]; exact ht,
        by rw [(hdimsT.2.2.2.2 t ht).2.1]; exact hi⟩]
    have hexecBt : get_executed sBt t i = true :=
      (get_executed_congr sBt _ hBtex t i).trans hexecAT
    have huBt : unexec P sBt = unexec P (set_executed st t i true) := unexec_congr P sBt _ hBtex
    have huAt : unexec P (set_executed st t i true) + 1 = unexec P st :=
      unexec_set_executed_true P st t i ht hi hdimsT.2.1 (hdimsT.2.2.2.2 t ht).2.1 hneT
    have huAi : unexec P (set_executed si t i true) + 1 = unexec P si :=
      unexec_set_executed_true P si t i ht hi hdimsI.2.1 (hdimsI.2.2.2.2 t ht).2.1 hneI
    have hposi : 1 ≤ unexec P si := unexec_pos P si t i ht hi hneI
    by_cases hst : (instr P t i).store = true
    · -- store: both sides perform the same memory write
      rw [if_pos hst] at hI hT
      have hupdI : update_memvar (instr P t i).mem (instr P t i).value (set_executed si t i true)
          = some (si.memvalues.getD p 0,
              ⟨(set_executed si t i true).po, (set_executed si t i true).executed,
               (set_executed si t i true).memvars, si.memvalues.set p (instr P t i).value,
               (set_executed si t i true).loadvalues⟩) :=
        update_memvar_eq (set_executed si t i true) _ _ p hpidx hpmvI
      rw [hupdI] at hI
      simp only [Option.bind_eq_bind, Option.some_bind] at hI
      set sAi : SState :=
        ⟨(set_executed si t i true).po, (set_executed si t i true).executed,
         (set_executed si t i true).memvars, si.memvalues.set p (instr P t i).value,
         (set_executed si t i true).loadvalues⟩ with hsAi
      set sBi : SState := remove_po P t i sAi with hsBi
      have hBiex : sBi.executed = (set_executed si t i true).executed := remove_po_executed P t i sAi
      have hBimv : sBi.memvars = si.memvars := remove_po_memvars P t i sAi
      have hBimvals : sBi.memvalues = si.memvalues.set p (instr P t i).value :=
        remove_po_memvalues P t i sAi
      have hBilv : sBi.loadvalues = si.loadvalues := remove_po_loadvalues P t i sAi
      have hBidims : dims_ok P sBi :=
        dims_ok_remove_po P sAi t i
          (dims_ok_set_memvalues P (set_executed si t i true) p _
            (dims_ok_set_executed P si t i true hdimsI))
      have hpoBi : po_matches P edge_ibm sBi := by
        apply po_matches_congr P edge_ibm (remove_po P t i (set_executed si t i true)) sBi
        · exact remove_po_po_congr P t i sAi (set_executed si t i true) rfl
        · rw [hBiex, remove_po_executed]
        · exact po_matches_after P edge_ibm si t i hdimsI hpoI ht hi
            (fun d hd => edge_ibm_low P t d i hd)
      have hlzBi : loads_zero P sBi :=
        loads_zero_congr P (set_executed si t i true) sBi hBiex (by rw [hBilv]; rfl)
          (loads_zero_set_executed P si t i hlzI)
      have hregBi : registered P sBi := registered_congr P si sBi hBimv hregI
      have hinvBi : inv P edge_ibm sBi := ⟨hBidims, hpoBi, hlzBi, hregBi⟩
      have huBi : unexec P sBi = unexec P (set_executed si t i true) := unexec_congr P sBi _ hBiex
      -- tso effect
      have hupdT : update_memvar (instr P t i).mem (instr P t i).value sBt
          = some (sBt.memvalues.getD p 0,
              ⟨sBt.po, sBt.executed, sBt.memvars,
               sBt.memvalues.set p (instr P t i).value, sBt.loadvalues⟩) :=
        update_memvar_eq sBt _ _ p hidxBt hpBt
      rw [hupdT] at hT
      simp only [Option.map_some', Option.bind_eq_bind, Option.some_bind] at hT
      set sCt : SState := ⟨sBt.po, sBt.executed, sBt.memvars,
        sBt.memvalues.set p (instr P t i).value, sBt.loadvalues⟩ with hsCt
      have hCtdims : dims_ok P sCt := dims_ok_set_memvalues P sBt p _ hBtdims
      have hpoCt : po_matches P edge_tso sCt := po_matches_congr P edge_tso sBt sCt rfl rfl hpoBt
      have hlzCt : loads_zero P sCt := loads_zero_congr P sBt sCt rfl rfl hlzBt
      have hregCt : registered P sCt := registered_congr P sBt sCt rfl hregBt
      have hinvCt : inv P edge_tso sCt := ⟨hCtdims, hpoCt, hlzCt, hregCt⟩
      have huCt : unexec P sCt = unexec P (set_executed st t i true) := by
        rw [unexec_congr P sCt sBt rfl]
        exact huBt
      -- core agreement of the two post-effect states
      have hEx : sBi.executed = sCt.executed := by
        rw [hBiex, hsetex]
        exact hBtex.symm
      have hMv : sBi.memvars = sCt.memvars := by
        rw [hBimv, hmv]
        exact hBtmv.symm
      have hMvals : sBi.memvalues = sCt.memvalues := by
        rw [hBimvals]
        show si.memvalues.set p (instr P t i).value = sBt.memvalues.set p (instr P t i).value
        rw [hmvals, hBtmvals]
      have hLv : sBi.loadvalues = sCt.loadvalues := by
        rw [hBilv, hlv]
        exact hBtlv.symm
      have hallEq : all_executed P sBi = all_executed P sCt := all_executed_congr P sBi sCt hEx
      have hqnT : ¬((!(instr P t i).store && is_prevstore P t i
          && !(is_prevstore_executed P t i sCt)) = true) := by
        simp [hst]
      have hupd2I : update_memvar (instr P t i).mem (si.memvalues.getD p 0) (add_po_ibm P t i sBi)
          = some ((add_po_ibm P t i sBi).memvalues.getD p 0,
              ⟨(add_po_ibm P t i sBi).po, (add_po_ibm P t i sBi).executed,
               (add_po_ibm P t i sBi).memvars,
               (add_po_ibm P t i sBi).memvalues.set p (si.memvalues.getD p 0),
               (add_po_ibm P t i sBi).loadvalues⟩) := by
        apply update_memvar_eq
        · rw [add_po_ibm_memvars, hBimv]
          exact hpidx
        · rw [add_po_ibm_memvalues, hBimvals, List.length_set]
          exact hpmvI
      have hupd2T : update_memvar (instr P t i).mem (si.memvalues.getD p 0) sCt
          = some (sCt.memvalues.getD p 0,
              ⟨sCt.po, sCt.executed, sCt.memvars,
               sCt.memvalues.set p (si.memvalues.getD p 0), sCt.loadvalues⟩) := by
        apply update_memvar_eq
        · exact hidxBt
        · show p < (sBt.memvalues.set p (instr P t i).value).length
          rw [List.length_set]
          exact hpBt
      by_cases hall : all_executed P sBi = true
      · rw [if_pos hall] at hI
        rw [if_pos (show all_executed P sCt = true by rw [← hallEq]; exact hall)] at hT
        rw [if_neg hqnT] at hT
        rw [if_pos hst] at hI hT
        rw [hupd2I] at hI
        rw [hupd2T] at hT
        simp only [Option.map_some', Option.bind_eq_bind, Option.some_bind,
          Option.pure_def] at hI hT
        have hrIeq : rI.2 = add_possible_execution P solsI sBi := by
          rw [← Option.some.inj hI]
        have hrTeq : rT.2 = add_possible_execution P solsT sCt := by
          rw [← Option.some.inj hT]
        rw [hrIeq] at ho
        rw [hrTeq]
        rw [mem_add_possible_execution] at ho
        rw [mem_add_possible_execution]
        rcases ho with ho | ho
        · exact Or.inl (hsub o ho)
        · refine Or.inr ?_
          rw [ho]
          exact outcome_congr P sBi sCt hMv hMvals hLv
      · rw [if_neg hall] at hI
        rw [if_neg (show ¬(all_executed P sCt = true) by rw [← hallEq]; exact hall)] at hT
        obtain ⟨dI2, hrecI⟩ := exec_ibm_restore P f sBi solsI hinvBi (by omega)
        obtain ⟨dT2, hrecT⟩ := exec_tso_restore P f sCt solsT hinvCt (by omega)
        rw [hrecI] at hI
        rw [hrecT] at hT
        simp only [Option.bind_eq_bind, Option.some_bind] at hI hT
        rw [if_neg hqnT] at hT
        rw [if_pos hst] at hI hT
        rw [hupd2I] at hI
        rw [hupd2T] at hT
        simp only [Option.map_some', Option.bind_eq_bind, Option.some_bind,
          Option.pure_def] at hI hT
        have hrIeq : rI.2 = solsI ++ dI2 := by
          rw [← Option.some.inj hI]
        have hrTeq : rT.2 = solsT ++ dT2 := by
          rw [← Option.some.inj hT]
        rw [hrIeq] at ho
        rw [hrTeq]
        exact IH sBi sCt solsI solsT hinvBi hinvCt hEx hMv hMvals hLv hsub (by omega) o
          (sBi, solsI ++ dI2) (sCt, solsT ++ dT2) hrecI hrecT ho
    · -- load: IBM eligibility makes every earlier same-location store
      -- executed, so the TSO forwarding branch and the second recursion
      -- are both disabled and the load reads the same memory value
      rw [if_neg hst] at hI hT
      have hstf : (instr P t i).store = false := by
        simpa using hst
      have hgetI : get_memvar (set_executed si t i true) (instr P t i).mem
          = some (si.memvalues.getD p 0) :=
        get_memvar_eq (set_executed si t i true) _ p hpidx hpmvI
      rw [hgetI] at hI
      simp only [Option.map_some', Option.bind_eq_bind, Option.some_bind] at hI
      set sBi : SState :=
        remove_po P t i (update_load t i (si.memvalues.getD p 0) (set_executed si t i true)).2
        with hsBi
      have hBiex : sBi.executed = (set_executed si t i true).executed :=
        remove_po_executed P t i _
      have hBimv : sBi.memvars = si.memvars := remove_po_memvars P t i _
      have hBimvals : sBi.memvalues = si.memvalues := remove_po_memvalues P t i _
      have hBilv : sBi.loadvalues
          = ((update_load t i (si.memvalues.getD p 0) si).2).loadvalues :=
        remove_po_loadvalues P t i _
      have hexecAi : get_executed (set_executed si t i true) t i = true := by
        rw [get_executed_set]
        rw [if_pos ⟨rfl, rfl, by rw [hdimsI.2.1]; exact ht,
          by rw [(hdimsI.2.2.2.2 t ht).2.1]; exact hi⟩]
      have hBidims : dims_ok P sBi :=
        dims_ok_remove_po P _ t i
          (dims_ok_update_load P (set_executed si t i true) t i _
            (dims_ok_set_executed P si t i true hdimsI))
      have hpoBi : po_matches P edge_ibm sBi := by
        apply po_matches_congr P edge_ibm (remove_po P t i (set_executed si t i true)) sBi
        · exact remove_po_po_congr P t i _ (set_executed si t i true) rfl
        · rw [hBiex, remove_po_executed]
        · exact po_matches_after P edge_ibm si t i hdimsI hpoI ht hi
            (fun d hd => edge_ibm_low P t d i hd)
      have hlzBi : loads_zero P sBi :=
        loads_zero_congr P
          ((update_load t i (si.memvalues.getD p 0) (set_executed si t i true)).2) sBi
          (remove_po_executed P t i _) (remove_po_loadvalues P t i _)
          (loads_zero_update_load P (set_executed si t i true) t i _ hexecAi
            (loads_zero_set_executed P si t i hlzI))
      have hregBi : registered P sBi := registered_congr P si sBi hBimv hregI
      have hinvBi : inv P edge_ibm sBi := ⟨hBidims, hpoBi, hlzBi, hregBi⟩
      have huBi : unexec P sBi = unexec P (set_executed si t i true) := unexec_congr P sBi _ hBiex
      -- every earlier same-location store is already executed
      have hnofwd : ∀ s2 : SState, s2.executed = sBt.executed →
          is_prevstore P t i = true → is_prevstore_executed P t i s2 = true := by
        intro s2 hs2 hips
        unfold is_prevstore at hips
        rw [List.any_eq_true] at hips
        obtain ⟨j, hjr, hj⟩ := hips
        rw [Bool.and_eq_true] at hj
        have hjlt : j < i := List.mem_range.mp hjr
        have hjexI : get_executed si t j = true :=
          nodep_prev_executed P si t i hpoI ht hi hnodepI j hjlt hj.1 hj.2
        have hjex2 : get_executed s2 t j = true := by
          rw [get_executed_congr s2 sBt hs2 t j, get_executed_congr sBt _ hBtex t j,
            get_executed_set, if_neg (fun hc => absurd hc.2.1 (by omega)),
            get_executed_congr st si hex.symm t j]
          exact hjexI
        unfold is_prevstore_executed
        rw [List.any_eq_true]
        refine ⟨j, hjr, ?_⟩
        rw [Bool.and_eq_true, Bool.and_eq_true]
        exact ⟨⟨hj.1, hj.2⟩, hjex2⟩
      have hfwdF : ¬((is_prevstore P t i && !(is_prevstore_executed P t i sBt)) = true) := by
        intro hcon
        rw [Bool.and_eq_true] at hcon
        have h1 := hnofwd sBt rfl hcon.1
        rw [h1] at hcon
        simp at hcon
      have hqnT : ∀ s2 : SState, s2.executed = sBt.executed →
          ¬((!(instr P t i).store && is_prevstore P t i
            && !(is_prevstore_executed P t i s2)) = true) := by
        intro s2 hs2 hcon
        rw [Bool.and_eq_true, Bool.and_eq_true] at hcon
        have h1 := hnofwd s2 hs2 hcon.1.2
        rw [h1] at hcon
        simp at hcon
      have hvT : tso_load_value P t i sBt = some (si.memvalues.getD p 0) := by
        unfold tso_load_value
        rw [if_neg hfwdF]
        exact holdT
      rw [hvT] at hT
      simp only [Option.map_some', Option.bind_eq_bind, Option.some_bind] at hT
      set sCt : SState := (update_load t i (si.memvalues.getD p 0) sBt).2 with hsCt
      have hCtdims : dims_ok P sCt := dims_ok_update_load P sBt t i _ hBtdims
      have hpoCt : po_matches P edge_tso sCt := po_matches_congr P edge_tso sBt sCt rfl rfl hpoBt
      have hlzCt : loads_zero P sCt := loads_zero_update_load P sBt t i _ hexecBt hlzBt
      have hregCt : registered P sCt := registered_congr P sBt sCt rfl hregBt
      have hinvCt : inv P edge_tso sCt := ⟨hCtdims, hpoCt, hlzCt, hregCt⟩
      have huCt : unexec P sCt = unexec P (set_executed st t i true) := by
        rw [unexec_congr P sCt sBt rfl]
        exact huBt
      have hEx : sBi.executed = sCt.executed := by
        rw [hBiex, hsetex]
        exact hBtex.symm
      have hMv : sBi.memvars = sCt.memvars := by
        rw [hBimv, hmv]
        exact hBtmv.symm
      have hMvals : sBi.memvalues = sCt.memvalues := by
        rw [hBimvals, hmvals]
        exact hBtmvals.symm
      have hLv : sBi.loadvalues = sCt.loadvalues := by
        rw [hBilv]
        show si.loadvalues.set t ((si.loadvalues.getD t []).set i (si.memvalues.getD p 0))
          = sBt.loadvalues.set t ((sBt.loadvalues.getD t []).set i (si.memvalues.getD p 0))
        rw [hlv, hBtlv]
      have hallEq : all_executed P sBi = all_executed P sCt := all_executed_congr P sBi sCt hEx
      by_cases hall : all_executed P sBi = true
      · rw [if_pos hall] at hI
        rw [if_pos (show all_executed P sCt = true by rw [← hallEq]; exact hall)] at hT
        rw [if_neg (hqnT sCt rfl)] at hT
        rw [if_neg hst] at hI hT
        simp only [Option.bind_eq_bind, Option.some_bind, Option.pure_def] at hI hT
        have hrIeq : rI.2 = add_possible_execution P solsI sBi := by
          rw [← Option.some.inj hI]
        have hrTeq : rT.2 = add_possible_execution P solsT sCt := by
          rw [← Option.some.inj hT]
        rw [hrIeq] at ho
        rw [hrTeq]
        rw [mem_add_possible_execution] at ho
        rw [mem_add_possible_execution]
        rcases ho with ho | ho
        · exact Or.inl (hsub o ho)
        · exact Or.inr (ho.trans (outcome_congr P sBi sCt hMv hMvals hLv))
      · rw [if_neg hall] at hI
        rw [if_neg (show ¬(all_executed P sCt = true) by rw [← hallEq]; exact hall)] at hT
        obtain ⟨dI2, hrecI⟩ := exec_ibm_restore P f sBi solsI hinvBi (by omega)
        obtain ⟨dT2, hrecT⟩ := exec_tso_restore P f sCt solsT hinvCt (by omega)
        rw [hrecI] at hI
        rw [hrecT] at hT
        simp only [Option.bind_eq_bind, Option.some_bind] at hI hT
        rw [if_neg (hqnT sCt rfl)] at hT
        rw [if_neg hst] at hI hT
        simp only [Option.bind_eq_bind, Option.some_bind, Option.pure_def] at hI hT
        have hrIeq : rI.2 = solsI ++ dI2 := by
          rw [← Option.some.inj hI]
        have hrTeq : rT.2 = solsT ++ dT2 := by
          rw [← Option.some.inj hT]
        rw [hrIeq] at ho
        rw [hrTeq]
        exact IH sBi sCt solsI solsT hinvBi hinvCt hEx hMv hMvals hLv hsub (by omega) o
          (sBi, solsI ++ dI2) (sCt, solsT ++ dT2) hrecI hrecT ho

theorem fold_subset_ibm_tso (P : Program) (f : Nat)
    (IH : ∀ si st solsI solsT,
      inv P edge_ibm si → inv P edge_tso st →
      si.executed = st.executed → si.memvars = st.memvars → si.memvalues = st.memvalues →
      si.loadvalues = st.loadvalues → (∀ o2 ∈ solsI, o2 ∈ solsT) → unexec P si < f →
      ∀ o2 rI rT, exec_ibm P f si solsI = some rI → exec_tso P f st solsT = some rT →
        o2 ∈ rI.2 → o2 ∈ rT.2) :
    ∀ (L : List (Nat × Nat)), (∀ ti ∈ L, ti ∈ pairs P) →
    ∀ (si st : SState) (solsI solsT : List String),
    inv P edge_ibm si → inv P edge_tso st →
    si.executed = st.executed → si.memvars = st.memvars → si.memvalues = st.memvalues →
    si.loadvalues = st.loadvalues → (∀ o2 ∈ solsI, o2 ∈ solsT) → unexec P si ≤ f →
    ∀ o rI rT,
      L.foldlM (ibm_iter P (fun a b => exec_ibm P f a b)) (si, solsI) = some rI →
      L.foldlM (tso_iter P (fun a b => exec_tso P f a b)) (st, solsT) = some rT →
      o ∈ rI.2 → o ∈ rT.2 := by
  intro L
  induction L with
  | nil =>
    intro _ si st solsI solsT _ _ _ _ _ _ hsub _ o rI rT hI hT ho
    have hrI : (si, solsI) = rI := by simpa using hI
    have hrT : (st, solsT) = rT := by simpa using hT
    rw [← hrT]
    rw [← hrI] at ho
    exact hsub o ho
  | cons ti L ihL =>
    intro hmem si st solsI solsT hinvI hinvT hex hmv hmvals hlv hsub hf o rI rT hI hT ho
    obtain ⟨t, i⟩ := ti
    have hran := (pairs_mem P t i).mp (hmem (t, i) (List.mem_cons_self _ _))
    have huST : unexec P st = unexec P si := unexec_congr P st si hex.symm
    obtain ⟨dI1, hiterI⟩ := ibm_iter_restore P f
      (fun s2 sols2 h1 h2 => exec_ibm_restore P f s2 sols2 h1 h2) si solsI t i hinvI hf
      hran.1 hran.2
    obtain ⟨dT1, hiterT⟩ := tso_iter_restore P f
      (fun s2 sols2 h1 h2 => exec_tso_restore P f s2 sols2 h1 h2) st solsT t i hinvT
      (by omega) hran.1 hran.2
    have hstep : ∀ o2 ∈ solsI ++ dI1, o2 ∈ solsT ++ dT1 := by
      intro o2 ho2
      exact iter_subset_ibm_tso P f IH si st solsI solsT t i hinvI hinvT hex hmv hmvals hlv
        hsub hf hran.1 hran.2 o2 (si, solsI ++ dI1) (st, solsT ++ dT1) hiterI hiterT ho2
    rw [List.foldlM_cons, hiterI] at hI
    rw [List.foldlM_cons, hiterT] at hT
    simp only [Option.bind_eq_bind, Option.some_bind] at hI hT
    exact ihL (fun x hx => hmem x (List.mem_cons_of_mem _ hx)) si st (solsI ++ dI1)
      (solsT ++ dT1) hinvI hinvT hex hmv hmvals hlv hstep hf o rI rT hI hT ho

theorem exec_subset_ibm_tso (P : Program) :
    ∀ (fuel : Nat) (si st : SState) (solsI solsT : List String),
    inv P edge_ibm si → inv P edge_tso st →
    si.executed = st.executed → si.memvars = st.memvars → si.memvalues = st.memvalues →
    si.loadvalues = st.loadvalues → (∀ o2 ∈ solsI, o2 ∈ solsT) → unexec P si < fuel →
    ∀ o rI rT, exec_ibm P fuel si solsI = some rI → exec_tso P fuel st solsT = some rT →
      o ∈ rI.2 → o ∈ rT.2 := by
  intro fuel
  induction fuel with
  | zero =>
    intro si st solsI solsT _ _ _ _ _ _ _ hf
    exact absurd hf (by omega)
  | succ f ihf =>
    intro si st solsI solsT hinvI hinvT hex hmv hmvals hlv hsub hf o rI rT hI hT ho
    rw [exec_ibm_succ] at hI
    rw [exec_tso_succ] at hT
    exact fold_subset_ibm_tso P f ihf (pairs P) (fun ti h => h) si st solsI solsT
      hinvI hinvT hex hmv hmvals hlv hsub (by omega) o rI rT hI hT ho



theorem find_range_reverse_max (p : Nat → Bool) :
    ∀ (i j : Nat), (List.range i).reverse.find? p = some j →
    j < i ∧ p j = true ∧ ∀ k, j < k → k < i → p k = false := by
  intro i
  induction i with
  | zero =>
    intro j h
    simp at h
  | succ n ih =>
    intro j h
    rw [List.range_succ, List.reverse_append, List.reverse_singleton,
      List.singleton_append] at h
    cases hpn : p n with
    | true =>
      rw [List.find?_cons, hpn] at h
      have hj : n = j := Option.some.inj h
      subst hj
      exact ⟨by omega, hpn, fun k hk1 hk2 => ((by omega : False).elim)⟩
    | false =>
      rw [List.find?_cons, hpn] at h
      obtain ⟨h1, h2, h3⟩ := ih j h
      refine ⟨by omega, h2, ?_⟩
      intro k hk1 hk2
      by_cases hkn : k = n
      · rw [hkn]
        exact hpn
      · exact h3 k hk1 (by omega)

set_option maxRecDepth 1000000
set_option maxHeartbeats 4000000

/-- Claim C1: the claim states that on every single-thread program both
searches record exactly the program-order outcome set.  The code does
not satisfy this: on `st x 1; st x 2; ld x` the IBM370 search records
only the program-order outcome (the load observes 2), but the TSO
search also records an outcome in which the load observes 1, because
`is_prevstore_executed` scans past the not-yet-executed nearest store
`st x 2` and accepts the older executed `st x 1`, disabling forwarding
and letting the load read back the stale memory value. -/
theorem c1_single_thread_outcomes :
    solutions_ibm prog1 = ["[x]==2; x==2; "] ∧
    solutions_tso prog1 = ["[x]==2; x==2; ", "[x]==2; x==1; "] ∧
    solutions_tso prog1 ≠ solutions_ibm prog1 := by
  decide

/-- Claim C2, counterexample: the both-loads-read-0 outcome of the
store-buffering litmus test is recorded by the store-atomic (IBM370)
search, contradicting the claim that it is absent from
`solutions_ibm`: `add_po_ibm` orders a store before a later load only
when they name the same location, so each thread's load may execute
before its store. -/
theorem c2_sb_outcome_in_ibm :
    "[x]==1; [y]==1; y==0; x==0; " ∈ solutions_ibm litmus := by
  decide

/-- Claim C2, amended: on the store-buffering litmus test the
both-loads-read-0 outcome is recorded by both searches and is therefore
reported without the relaxed-only star. -/
theorem c2_sb_outcome_both_models :
    "[x]==1; [y]==1; y==0; x==0; " ∈ solutions_tso litmus ∧
    ("[x]==1; [y]==1; y==0; x==0; ", false) ∈ report_tso litmus := by
  decide

/-- Claim C3: every outcome the store-atomic search records is also
recorded by the relaxed search. -/
theorem c3_tso_superset (P : Program) (o : String) (h : o ∈ solutions_ibm P) :
    o ∈ solutions_tso P := by
  obtain ⟨dI, dT, hrun, hI, hT⟩ := run_main_eq P
  have hsi : solutions_ibm P = dI := by
    unfold solutions_ibm
    rw [hrun]
    rfl
  have hst : solutions_tso P = dT := by
    unfold solutions_tso
    rw [hrun]
    rfl
  rw [hsi] at h
  rw [hst]
  exact exec_subset_ibm_tso P (total_instrs P + 1) (init_ibm P) (init_tso P) [] []
    (inv_init_ibm P) (inv_init_tso P)
    (show (build_po_graph_ibm P (init_state P)).executed
        = (build_po_graph_tso P (init_state P)).executed by
      rw [build_ibm_executed, build_tso_executed])
    (show (build_po_graph_ibm P (init_state P)).memvars
        = (build_po_graph_tso P (init_state P)).memvars by
      rw [build_ibm_memvars, build_tso_memvars])
    (show (build_po_graph_ibm P (init_state P)).memvalues
        = (build_po_graph_tso P (init_state P)).memvalues by
      rw [build_ibm_memvalues, build_tso_memvalues])
    (show (build_po_graph_ibm P (init_state P)).loadvalues
        = (build_po_graph_tso P (init_state P)).loadvalues by
      rw [build_ibm_loadvalues, build_tso_loadvalues])
    (fun o2 ho2 => absurd ho2 (List.not_mem_nil o2))
    (by have := unexec_le_total P (init_ibm P); omega)
    o (init_ibm P, dI) (init_tso P, dT) hI hT h

theorem c3_tso_superset_witness :
    "[x]==1; [y]==1; y==0; x==0; " ∈ solutions_ibm litmus ∧
    "[x]==1; [y]==1; y==0; x==0; " ∈ solutions_tso litmus :=
  ⟨by decide, c3_tso_superset litmus "[x]==1; [y]==1; y==0; x==0; " (by decide)⟩

/-- Claim C4, counterexample: the claim states the second continuation
re-applies the current globally committed memory value.  It does not:
on `st x 1; ld x` with a concurrent `st x 2`, the continuation in which
the load observes the committed value 2 while its own store commits
afterwards (outcome memory `x==1`, load `x==2`) is reachable in the
spec-described search but is never recorded by the source's search,
which re-applies the forwarded `get_prevstore` value instead. -/
theorem c4_committed_branch_missing :
    "[x]==1; x==2; " ∈ solutions_tso_spec prog3 ∧
    "[x]==1; x==2; " ∉ solutions_tso prog3 := by
  decide

/-- Claim C4, amended: when the forwarding condition holds, the relaxed
search does run two continuations, but both start from the identical
state — the load's recorded value in the second run is again the
forwarded `get_prevstore` value, not the committed memory value — and
the iteration returns the second run's solution list. -/
theorem c4_second_branch_identical (P : Program) (f : Nat) (s : SState)
    (sols : List String) (t i : Nat)
    (hinv : inv P edge_tso s) (hf : unexec P s ≤ f)
    (ht : t < num_threads P) (hi : i < num_instrs P t)
    (hg : (!(get_executed s t i) && !(has_po_dependencies P t i s)) = true)
    (hst : (instr P t i).store = false)
    (hfwd : (is_prevstore P t i
      && !(is_prevstore_executed P t i (remove_po P t i (set_executed s t i true)))) = true) :
    ∃ sols1 sols2,
      tso_branch P f t i
        ((update_load t i (get_prevstore P t i)
          (remove_po P t i (set_executed s t i true))).2) sols
        = some ((update_load t i (get_prevstore P t i)
            (remove_po P t i (set_executed s t i true))).2, sols1) ∧
      tso_branch P f t i
        ((update_load t i (get_prevstore P t i)
          (remove_po P t i (set_executed s t i true))).2) sols1
        = some ((update_load t i (get_prevstore P t i)
            (remove_po P t i (set_executed s t i true))).2, sols2) ∧
      tso_iter P (fun a b => exec_tso P f a b) (s, sols) (t, i) = some (s, sols2) := by
  obtain ⟨hdims, hpo, hlz, hreg⟩ := hinv
  obtain ⟨hD1, hD2, hD3, hD4, hD5⟩ := hdims
  have hdims' : dims_ok P s := ⟨hD1, hD2, hD3, hD4, hD5⟩
  have hrowex : (s.executed.getD t []).length = num_instrs P t := (hD5 t ht).2.1
  have hne : get_executed s t i = false := by
    rw [Bool.and_eq_true] at hg
    simpa using hg.1
  obtain ⟨p, hpidx, hplt⟩ := memIdx_of_mem s.memvars (instr P t i).mem (hreg t ht i hi)
  have hpmv : p < s.memvalues.length := by rw [hD4]; exact hplt
  have hTex : t < s.executed.length := by rw [hD2]; exact ht
  have hIex : i < (s.executed.getD t []).length := by rw [hrowex]; exact hi
  have huA : unexec P (set_executed s t i true) + 1 = unexec P s :=
    unexec_set_executed_true P s t i ht hi hD2 hrowex hne
  have hpos : 1 ≤ unexec P s := unexec_pos P s t i ht hi hne
  have hzero : get_load s t i = 0 := hlz t ht i hi hne
  have hTlv : t < s.loadvalues.length := by rw [hD3]; exact ht
  have hIlv : i < (s.loadvalues.getD t []).length := by
    rw [(hD5 t ht).2.2.1]
    exact hi
  simp only [tso_iter, if_pos hg]
  set sB : SState := remove_po P t i (set_executed s t i true) with hsB
  have hBmv : sB.memvars = s.memvars := remove_po_memvars P t i _
  have hBmvals : sB.memvalues = s.memvalues := remove_po_memvalues P t i _
  have hBex : sB.executed = (set_executed s t i true).executed := remove_po_executed P t i _
  have hBlv : sB.loadvalues = s.loadvalues := remove_po_loadvalues P t i _
  have hBpo : sB.po = (remove_po P t i s).po := remove_po_po_congr P t i _ s rfl
  have hBdims : dims_ok P sB :=
    dims_ok_remove_po P _ t i (dims_ok_set_executed P s t i true hdims')
  have hpoB : po_matches P edge_tso sB :=
    po_matches_after P edge_tso s t i hdims' hpo ht hi (fun d hd => edge_tso_low P t d i hd)
  have hlzB : loads_zero P sB :=
    loads_zero_congr P (set_executed s t i true) sB hBex (by rw [hBlv]; rfl)
      (loads_zero_set_executed P s t i hlz)
  have hregB : registered P sB := registered_congr P s sB hBmv hreg
  have huB : unexec P sB = unexec P (set_executed s t i true) := unexec_congr P sB _ hBex
  have hexecA : get_executed (set_executed s t i true) t i = true := by
    rw [get_executed_set]
    rw [if_pos ⟨rfl, rfl, hTex, hIex⟩]
  have hexecB : get_executed sB t i = true := (get_executed_congr sB _ hBex t i).trans hexecA
  have hidxB : memIdx sB.memvars (instr P t i).mem = some p := by
    rw [hBmv]
    exact hpidx
  have hpB : p < sB.memvalues.length := by
    rw [hBmvals]
    exact hpmv
  have hold : get_memvar sB (instr P t i).mem = some (s.memvalues.getD p 0) := by
    have h1 := get_memvar_eq sB (instr P t i).mem p hidxB hpB
    rw [hBmvals] at h1
    exact h1
  rw [hold]
  simp only [Option.bind_eq_bind, Option.some_bind]
  rw [if_neg (show ¬((instr P t i).store = true) by simp [hst])]
  have hv : tso_load_value P t i sB = some (get_prevstore P t i) := by
    unfold tso_load_value
    rw [if_pos hfwd]
  rw [hv]
  simp only [Option.map_some', Option.bind_eq_bind, Option.some_bind]
  set sC : SState := (update_load t i (get_prevstore P t i) sB).2 with hsC
  have hCdims : dims_ok P sC := dims_ok_update_load P sB t i _ hBdims
  have hpoC : po_matches P edge_tso sC := po_matches_congr P edge_tso sB sC rfl rfl hpoB
  have hlzC : loads_zero P sC := loads_zero_update_load P sB t i _ hexecB hlzB
  have hregC : registered P sC := registered_congr P sB sC rfl hregB
  have hinvC : inv P edge_tso sC := ⟨hCdims, hpoC, hlzC, hregC⟩
  have huC : unexec P sC = unexec P (set_executed s t i true) := by
    rw [unexec_congr P sC sB rfl]
    exact huB
  have hq : (!(instr P t i).store && is_prevstore P t i
      && !(is_prevstore_executed P t i sC)) = true := by
    have He : is_prevstore_executed P t i sC = is_prevstore_executed P t i sB :=
      is_prevstore_executed_congr P t i sC sB rfl
    rw [Bool.and_eq_true] at hfwd
    rw [He, hst, hfwd.2]
    simp [hfwd.1]
  have hTlvB : t < sB.loadvalues.length := by
    rw [hBlv]
    exact hTlv
  have hE : (update_load t i (get_prevstore P t i) sC).2 = sC := by
    apply SState.ext
    · rfl
    · rfl
    · rfl
    · rfl
    · show (sB.loadvalues.set t ((sB.loadvalues.getD t []).set i (get_prevstore P t i))).set t
        (((sB.loadvalues.set t ((sB.loadvalues.getD t []).set i (get_prevstore P t i))).getD
          t []).set i (get_prevstore P t i))
        = sB.loadvalues.set t ((sB.loadvalues.getD t []).set i (get_prevstore P t i))
      exact set2_collapse sB.loadvalues t i _ _ hTlvB
  have hlvC : sC.loadvalues = ((update_load t i (get_prevstore P t i) s).2).loadvalues := by
    show sB.loadvalues.set t ((sB.loadvalues.getD t []).set i (get_prevstore P t i))
      = s.loadvalues.set t ((s.loadvalues.getD t []).set i (get_prevstore P t i))
    rw [hBlv]
  have hfinal : set_executed (add_po_tso P t i (update_load t i 0 sC).2) t i false = s := by
    apply SState.ext
    · show (add_po_tso P t i (update_load t i 0 sC).2).po = s.po
      rw [add_po_tso_po_congr P t i _ (remove_po P t i s) (by exact hBpo)]
      exact po_restore_tso P s t i hdims' hpo ht hi hne
    · apply executed_restore s _ t i ?_ hne hTex hIex
      show (add_po_tso P t i (update_load t i 0 sC).2).executed
        = (set_executed s t i true).executed
      rw [add_po_tso_executed]
      exact hBex
    · show (add_po_tso P t i (update_load t i 0 sC).2).memvars = s.memvars
      rw [add_po_tso_memvars]
      exact hBmv
    · show (add_po_tso P t i (update_load t i 0 sC).2).memvalues = s.memvalues
      rw [add_po_tso_memvalues]
      exact hBmvals
    · show (add_po_tso P t i (update_load t i 0 sC).2).loadvalues = s.loadvalues
      rw [add_po_tso_loadvalues]
      exact loadvalues_restore s sC t i (get_prevstore P t i) hlvC hzero hTlv hIlv
  by_cases hall : all_executed P sC = true
  · refine ⟨add_possible_execution P sols sC,
      add_possible_execution P (add_possible_execution P sols sC) sC, ?_, ?_, ?_⟩
    · unfold tso_branch
      rw [if_pos hall]
    · unfold tso_branch
      rw [if_pos hall]
    · rw [if_pos hall, if_pos hq, hE, if_pos hall,
        if_neg (show ¬((instr P t i).store = true) by simp [hst])]
      simp only [Option.some_bind, Option.pure_def]
      rw [hfinal]
  · obtain ⟨d1, hrec1⟩ := exec_tso_restore P f sC sols hinvC (by omega)
    obtain ⟨d2, hrec2⟩ := exec_tso_restore P f sC (sols ++ d1) hinvC (by omega)
    refine ⟨sols ++ d1, (sols ++ d1) ++ d2, ?_, ?_, ?_⟩
    · unfold tso_branch
      rw [if_neg hall, hrec1]
    · unfold tso_branch
      rw [if_neg hall, hrec2]
    · rw [if_neg hall, hrec1]
      simp only [Option.bind_eq_bind, Option.some_bind]
      rw [if_pos hq, hE, if_neg hall, hrec2]
      simp only [Option.bind_eq_bind, Option.some_bind]
      rw [if_neg (show ¬((instr P t i).store = true) by simp [hst])]
      simp only [Option.some_bind, Option.pure_def]
      rw [hfinal]

theorem c4_second_branch_identical_witness :
    ∃ sols1 sols2,
      tso_branch prog3 3 0 1
        ((update_load 0 1 (get_prevstore prog3 0 1)
          (remove_po prog3 0 1 (set_executed (init_tso prog3) 0 1 true))).2) []
        = some ((update_load 0 1 (get_prevstore prog3 0 1)
            (remove_po prog3 0 1 (set_executed (init_tso prog3) 0 1 true))).2, sols1) ∧
      tso_branch prog3 3 0 1
        ((update_load 0 1 (get_prevstore prog3 0 1)
          (remove_po prog3 0 1 (set_executed (init_tso prog3) 0 1 true))).2) sols1
        = some ((update_load 0 1 (get_prevstore prog3 0 1)
            (remove_po prog3 0 1 (set_executed (init_tso prog3) 0 1 true))).2, sols2) ∧
      tso_iter prog3 (fun a b => exec_tso prog3 3 a b) (init_tso prog3, []) (0, 1)
        = some (init_tso prog3, sols2) :=
  c4_second_branch_identical prog3 3 (init_tso prog3) [] 0 1 (inv_init_tso prog3)
    (by decide) (by decide) (by decide) (by decide) (by decide) (by decide)

/-- Claim C5, counterexample: the claim ties forwarding to the nearest
preceding same-location store being unexecuted.  In the state of the
relaxed search on `st x 1; st x 2; ld x` where only `st x 1` has
executed, the nearest preceding store `st x 2` is unexecuted — the
claim's rule would forward its value 2 — yet the source's load records
the memory value 1, because `is_prevstore_executed` accepts any earlier
executed same-location store. -/
theorem c5_forwarding_condition_cex :
    tso_load_value prog1 0 2 midState1 = some 1 ∧
    tso_load_value_claim prog1 0 2 midState1 = some 2 ∧
    nearest_prevstore prog1 0 2 = some 1 ∧
    get_executed midState1 0 1 = false ∧
    (instr prog1 0 1).value = 2 := by
  decide

/-- Claim C5, amended: an executing load of the relaxed search records
the nearest preceding same-thread same-location store's value exactly
when such a store exists and NO preceding same-location store — nearest
or not — has executed; otherwise it records the current memory value.
The conjuncts characterize the source's scan predicates by quantified
conditions, the forwarded value as the nearest match's value, and the
recorded value in both cases. -/
theorem c5_forwarding_characterization (P : Program) (t i : Nat) (s : SState) :
    (is_prevstore P t i = true ↔
      ∃ j, j < i ∧ (instr P t j).store = true ∧ (instr P t j).mem = (instr P t i).mem) ∧
    (is_prevstore_executed P t i s = true ↔
      ∃ j, j < i ∧ (instr P t j).store = true ∧ (instr P t j).mem = (instr P t i).mem ∧
        get_executed s t j = true) ∧
    ((is_prevstore P t i && !(is_prevstore_executed P t i s)) = true →
      tso_load_value P t i s = some (get_prevstore P t i)) ∧
    ((is_prevstore P t i && !(is_prevstore_executed P t i s)) = false →
      tso_load_value P t i s = get_memvar s (instr P t i).mem) ∧
    (∀ j, nearest_prevstore P t i = some j →
      get_prevstore P t i = (instr P t j).value ∧
      j < i ∧ (instr P t j).store = true ∧ (instr P t j).mem = (instr P t i).mem ∧
      ∀ k, j < k → k < i →
        ¬((instr P t k).store = true ∧ (instr P t k).mem = (instr P t i).mem)) := by
  refine ⟨?_, ?_, ?_, ?_, ?_⟩
  · unfold is_prevstore
    rw [List.any_eq_true]
    constructor
    · rintro ⟨j, hjr, hj⟩
      rw [Bool.and_eq_true, beq_iff_eq] at hj
      exact ⟨j, List.mem_range.mp hjr, hj.1, hj.2⟩
    · rintro ⟨j, hjlt, hjs, hjm⟩
      refine ⟨j, List.mem_range.mpr hjlt, ?_⟩
      rw [Bool.and_eq_true, beq_iff_eq]
      exact ⟨hjs, hjm⟩
  · unfold is_prevstore_executed
    rw [List.any_eq_true]
    constructor
    · rintro ⟨j, hjr, hj⟩
      rw [Bool.and_eq_true, Bool.and_eq_true, beq_iff_eq] at hj
      exact ⟨j, List.mem_range.mp hjr, hj.1.1, hj.1.2, hj.2⟩
    · rintro ⟨j, hjlt, hjs, hjm, hje⟩
      refine ⟨j, List.mem_range.mpr hjlt, ?_⟩
      rw [Bool.and_eq_true, Bool.and_eq_true, beq_iff_eq]
      exact ⟨⟨hjs, hjm⟩, hje⟩
  · intro hc
    unfold tso_load_value
    rw [if_pos hc]
  · intro hc
    unfold tso_load_value
    rw [if_neg (show ¬((is_prevstore P t i && !(is_prevstore_executed P t i s)) = true) by
      rw [hc]; exact Bool.false_ne_true)]
  · intro j hj
    unfold nearest_prevstore at hj
    obtain ⟨h1, h2, h3⟩ := find_range_reverse_max _ i j hj
    rw [Bool.and_eq_true, beq_iff_eq] at h2
    refine ⟨?_, h1, h2.1, h2.2, ?_⟩
    · unfold get_prevstore
      rw [hj]
    · intro k hk1 hk2 hcon
      have h4 := h3 k hk1 hk2
      rw [hcon.1] at h4
      simp only [Bool.true_and] at h4
      rw [beq_eq_false_iff_ne] at h4
      exact h4 hcon.2

theorem c5_forwarding_characterization_witness :
    tso_load_value prog1 0 2 midState1 = get_memvar midState1 (instr prog1 0 2).mem ∧
    get_prevstore prog1 0 2 = (instr prog1 0 1).value :=
  ⟨(c5_forwarding_characterization prog1 0 2 midState1).2.2.2.1 (by decide),
   ((c5_forwarding_characterization prog1 0 2 midState1).2.2.2.2 1 (by decide)).1⟩

/-- Claim C6: in the freshly built store-atomic graph, a cell
`po[t][d][i]` is set iff `i < d` and either `i` is a store whose later
instruction `d` is a store or names `i`'s location, or `i` is a load;
the relaxed graph is identical minus the store-to-same-location-load
edge; and no cell with `d ≤ i` is ever set. -/
theorem c6_dependency_graphs (P : Program) (t d i : Nat) (ht : t < num_threads P)
    (hd : d < num_instrs P t) (hi : i < num_instrs P t) :
    (getPo (init_ibm P) t d i = true ↔
      (i < d ∧ (((instr P t i).store = true ∧
        ((instr P t d).store = true ∨ (instr P t i).mem = (instr P t d).mem)) ∨
        (instr P t i).store = false))) ∧
    (getPo (init_tso P) t d i = true ↔
      (i < d ∧ (((instr P t i).store = true ∧ (instr P t d).store = true) ∨
        (instr P t i).store = false))) ∧
    (d ≤ i → getPo (init_ibm P) t d i = false ∧ getPo (init_tso P) t d i = false) := by
  have hIbm := getPo_init_ibm P t d i ht hd hi
  have hTso := getPo_init_tso P t d i ht hd hi
  refine ⟨?_, ?_, ?_⟩
  · rw [hIbm]
    unfold edge_ibm
    by_cases hs : (instr P t i).store = true
    · rw [hs]
      simp [beq_iff_eq]
    · have hs2 : (instr P t i).store = false := by
        revert hs
        cases (instr P t i).store <;> simp
      rw [hs2]
      simp
  · rw [hTso]
    unfold edge_tso
    by_cases hs : (instr P t i).store = true
    · rw [hs]
      simp
    · have hs2 : (instr P t i).store = false := by
        revert hs
        cases (instr P t i).store <;> simp
      rw [hs2]
      simp
  · intro hdi
    have hlt : decide (i < d) = false := by
      rw [decide_eq_false_iff_not]
      omega
    constructor
    · rw [hIbm]
      unfold edge_ibm
      rw [hlt]
      rfl
    · rw [hTso]
      unfold edge_tso
      rw [hlt]
      rfl

theorem c6_dependency_graphs_witness :
    getPo (init_ibm prog2) 0 1 0 = true ∧ getPo (init_ibm prog2) 0 0 1 = false :=
  ⟨((c6_dependency_graphs prog2 0 1 0 (by decide) (by decide) (by decide)).1).mpr (by decide),
   ((c6_dependency_graphs prog2 0 0 1 (by decide) (by decide) (by decide)).2.2
     (by decide)).1⟩

/-- Claim C7: from any state satisfying the search invariant, each
search (with enough fuel for its recursion depth) returns with exactly
the entry state — dependency matrix, executed markers, memory values
and load table all restored — having only appended newly discovered
outcomes. -/
theorem c7_state_restoration (P : Program) (fuel : Nat) :
    (∀ s sols, inv P edge_ibm s → unexec P s < fuel →
      ∃ d, exec_ibm P fuel s sols = some (s, sols ++ d)) ∧
    (∀ s sols, inv P edge_tso s → unexec P s < fuel →
      ∃ d, exec_tso P fuel s sols = some (s, sols ++ d)) :=
  ⟨fun s sols h1 h2 => exec_ibm_restore P fuel s sols h1 h2,
   fun s sols h1 h2 => exec_tso_restore P fuel s sols h1 h2⟩

theorem c7_state_restoration_witness :
    (∃ d, exec_ibm prog2 3 (init_ibm prog2) [] = some (init_ibm prog2, [] ++ d)) ∧
    (∃ d, exec_tso prog2 3 (init_tso prog2) [] = some (init_tso prog2, [] ++ d)) :=
  ⟨(c7_state_restoration prog2 3).1 (init_ibm prog2) [] (inv_init_ibm prog2) (by decide),
   (c7_state_restoration prog2 3).2 (init_tso prog2) [] (inv_init_tso prog2) (by decide)⟩

/-- Claim C8: a memory lookup whose location is registered always
succeeds (both the read and the update find their slot), and under the
search invariant — whose `registered` component says every instruction's
location is registered — neither search ever hits the failure branch
modelled by `none`. -/
theorem c8_lookups_succeed :
    (∀ (s : SState) (var : String) (value : Int), var ∈ s.memvars →
      s.memvalues.length = s.memvars.length →
      (get_memvar s var).isSome = true ∧ (update_memvar var value s).isSome = true) ∧
    (∀ (P : Program) (fuel : Nat) (s : SState) (sols : List String),
      inv P edge_ibm s → unexec P s < fuel → (exec_ibm P fuel s sols).isSome = true) ∧
    (∀ (P : Program) (fuel : Nat) (s : SState) (sols : List String),
      inv P edge_tso s → unexec P s < fuel → (exec_tso P fuel s sols).isSome = true) := by
  refine ⟨?_, ?_, ?_⟩
  · intro s var value hmem hlen
    obtain ⟨p, hpidx, hplt⟩ := memIdx_of_mem s.memvars var hmem
    have hp : p < s.memvalues.length := by rw [hlen]; exact hplt
    constructor
    · rw [get_memvar_eq s var p hpidx hp]
      rfl
    · rw [update_memvar_eq s var value p hpidx hp]
      rfl
  · intro P fuel s sols h1 h2
    obtain ⟨d, hd⟩ := exec_ibm_restore P fuel s sols h1 h2
    rw [hd]
    rfl
  · intro P fuel s sols h1 h2
    obtain ⟨d, hd⟩ := exec_tso_restore P fuel s sols h1 h2
    rw [hd]
    rfl

theorem c8_lookups_succeed_witness :
    ((get_memvar midState1 "x").isSome = true ∧
      (update_memvar "x" 7 midState1).isSome = true) ∧
    (exec_ibm prog1 4 (init_ibm prog1) []).isSome = true :=
  ⟨c8_lookups_succeed.1 midState1 "x" 7 (by decide) (by decide),
   c8_lookups_succeed.2.1 prog1 4 (init_ibm prog1) [] (inv_init_ibm prog1) (by decide)⟩

/-- Claim C9: on every bounded program both searches terminate — run
with fuel one more than the total instruction count, the bound on the
recursion depth, each search completes (returns a value instead of
exhausting its fuel). -/
theorem c9_search_terminates (P : Program) :
    (exec_ibm P (total_instrs P + 1) (init_ibm P) []).isSome = true ∧
    (exec_tso P (total_instrs P + 1) (init_tso P) []).isSome = true := by
  obtain ⟨dI, dT, _, hI, hT⟩ := run_main_eq P
  rw [hI, hT]
  exact ⟨rfl, rfl⟩

/-- Claim C10: the zero-loads invariant — every unexecuted instruction
has load value 0 — is preserved by marking an instruction executed and
by recording a load value for an executed instruction (so it holds at
every recursive call), it holds again for the state either search
returns, and it makes the fixed undo `update_load(t, i, 0)` identical
to restoring the load's pre-step value. -/
theorem c10_loads_zero_invariant (P : Program) (s : SState) (t i : Nat) (v : Int) :
    (loads_zero P s → loads_zero P (set_executed s t i true)) ∧
    (get_executed s t i = true → loads_zero P s → loads_zero P ((update_load t i v s).2)) ∧
    (t < num_threads P → i < num_instrs P t → get_executed s t i = false → loads_zero P s →
      update_load t i 0 s = update_load t i (get_load s t i) s) ∧
    (∀ fuel sols rI, inv P edge_ibm s → unexec P s < fuel →
      exec_ibm P fuel s sols = some rI → loads_zero P rI.1) ∧
    (∀ fuel sols rT, inv P edge_tso s → unexec P s < fuel →
      exec_tso P fuel s sols = some rT → loads_zero P rT.1) := by
  refine ⟨?_, ?_, ?_, ?_, ?_⟩
  · exact fun h => loads_zero_set_executed P s t i h
  · exact fun hexec h => loads_zero_update_load P s t i v hexec h
  · intro ht hi hne h
    rw [h t ht i hi hne]
  · intro fuel sols rI h1 h2 hr
    obtain ⟨d, hd⟩ := exec_ibm_restore P fuel s sols h1 h2
    rw [hd] at hr
    rw [← Option.some.inj hr]
    exact h1.2.2.1
  · intro fuel sols rT h1 h2 hr
    obtain ⟨d, hd⟩ := exec_tso_restore P fuel s sols h1 h2
    rw [hd] at hr
    rw [← Option.some.inj hr]
    exact h1.2.2.1

theorem c10_loads_zero_invariant_witness :
    update_load 0 2 0 midState1 = update_load 0 2 (get_load midState1 0 2) midState1 ∧
    loads_zero prog1 (set_executed midState1 0 1 true) :=
  ⟨(c10_loads_zero_invariant prog1 midState1 0 2 0).2.2.1
      (by decide) (by decide) (by decide) (by decide),
   (c10_loads_zero_invariant prog1 midState1 0 1 0).1 (by decide)⟩


end CC
